import Mathlib

/-!
Verification development for the configuration transformation engine of
`scripts/util/vm-optimize.py` (function `optimize_xml`, together with
`format_xml_for_diff`).

The lxml element tree is modelled shallowly: an element is a tag, an ordered
attribute list and an ordered list of children; inline text (lxml `.text` and
`.tail`) is represented by interleaved text children, exactly as libxml2
stores it.  The in-place mutation loops of `optimize_xml` (which iterate over
`root.xpath(...)` snapshots in document order) are encoded as structural
recursions over the tree; the per-rule mutations only ever touch the
attributes of direct children of the matched node (plus creation of one fresh
sub-node), so pre-order processing of the snapshot is equivalent to the
recursions used here, and the change records are accumulated in the same
document order.  Fallible Python operations (`int(...)`, the unbound local
`new_dev`, XML parsing) are modelled with `Except`.
-/

set_option maxHeartbeats 1000000

namespace VMOpt

/-- Attribute list of an element: (name, value) pairs in authored order,
mirroring the lxml attribute mapping (keys are unique in parsed documents). -/
abbrev Attrs := List (String × String)

/-- Shallow model of the lxml element tree used by `optimize_xml`. -/
inductive Node where
  | elem (tag : String) (attrs : Attrs) (children : List Node)
  | text (s : String)

/-- One change record, mirroring the Python tuple
`(optimization_key, old_value, new_value)`. -/
abbrev Change := String × String × String

/-- The Python exceptions that can escape `optimize_xml`:
`XMLSyntaxError` from `etree.fromstring`, `UnboundLocalError` from the
`new_dev` reference at the `disk_bus` change record, and
`ValueError` / `TypeError` from `int(...)` on the vcpu text. -/
inductive Err where
  | parseError
  | nameError
  | valueError
  | typeError
deriving DecidableEq

/-- First value bound to an attribute name (lxml `element.get(k)`). -/
def getA (a : Attrs) (k : String) : Option String :=
  (a.find? (fun p => p.1 == k)).map (fun p => p.2)

/-- lxml `element.get(k, d)`. -/
def getD (a : Attrs) (k : String) (d : String) : String :=
  (getA a k).getD d

/-- lxml `element.set(k, v)`: an existing attribute keeps its position, a new
one is appended at the end. -/
def setA (a : Attrs) (k v : String) : Attrs :=
  match a with
  | [] => [(k, v)]
  | p :: rest => if p.1 == k then (k, v) :: rest else p :: setA rest k v

def Node.tagOf : Node → String
  | .elem t _ _ => t
  | .text _ => ""

def Node.attrsOf : Node → Attrs
  | .elem _ a _ => a
  | .text _ => []

def Node.childrenOf : Node → List Node
  | .elem _ _ cs => cs
  | .text _ => []

def isTag (t : String) (n : Node) : Bool :=
  match n with
  | .elem t' _ _ => t' == t
  | .text _ => false

/-- lxml `element.find(tag)`: first direct child element with the tag. -/
def findC (t : String) (cs : List Node) : Option Node :=
  cs.find? (isTag t)

/-- Replace the first child matching the predicate (the model of an in-place
mutation of the element returned by `find`). -/
def updFirst (p : Node → Bool) (f : Node → Node) : List Node → List Node
  | [] => []
  | x :: xs => if p x then f x :: xs else x :: updFirst p f xs

/-- Insert a node right after the first child matching the predicate
(lxml `addnext`). -/
def insAfter (p : Node → Bool) (x : Node) : List Node → List Node
  | [] => [x]
  | y :: ys => if p y then y :: x :: ys else y :: insAfter p x ys

/-- lxml `element.text`: the text that precedes the first child element,
`None` when the element starts with a child element or has no content. -/
def Node.textOf : Node → Option String
  | .elem _ _ (.text s :: _) => some s
  | _ => none

/-- Digit run of a Python integer literal body: nonempty digits with single
underscores allowed between digits. -/
def digitsCore (lastDigit : Bool) (acc : Nat) : List Char → Option Nat
  | [] => if lastDigit then some acc else none
  | c :: cs =>
    if c.isDigit then digitsCore true (acc * 10 + (c.toNat - 48)) cs
    else if c == '_' && lastDigit then digitsCore false acc cs
    else none

/-- ASCII whitespace (the characters Python's `int` strips). -/
def isWsChar (c : Char) : Bool :=
  c == ' ' || c == '\n' || c == '\t' || c == '\r'

/-- Model of Python `int(s)` on strings: surrounding whitespace stripped,
optional sign, decimal digits.  `none` models the `ValueError`. -/
def pyIntOpt (s : String) : Option Int :=
  let core := ((s.data.dropWhile isWsChar).reverse.dropWhile isWsChar).reverse
  match core with
  | '+' :: rest => (digitsCore false 0 rest).map Int.ofNat
  | '-' :: rest => (digitsCore false 0 rest).map (fun n => -(Int.ofNat n))
  | cs => (digitsCore false 0 cs).map Int.ofNat

/-- Python `x or "1"` on an optional string: `None` and `""` are falsy. -/
def pyOrOne : Option String → String
  | none => "1"
  | some s => if s == "" then "1" else s

/-- Sets an attribute on an element node, identity on text nodes. -/
def setAttrOn (k v : String) : Node → Node
  | .elem t a cs => .elem t (setA a k v) cs
  | n => n

/-! ### Disk rule (`disk_bus` and `disk_cache`)

`for disk in root.xpath("//disk[@device='disk']")`: the bus of the `target`
child is rewritten when it is a legacy bus, and the `driver` child is forced
to the writeback/unmap/threads triple.  The Python local `new_dev` is only
assigned inside `if old_dev:`, yet it is read unconditionally in the change
record; this function-scoped, loop-carried variable is threaded through the
pass as an `Option String` (`none` models the `UnboundLocalError`). -/

def busLegacy (b : String) : Bool := b == "ide" || b == "sata" || b == "scsi"

/-- `re.sub(r'^[hs]d', 'vd', dev)`. -/
def devSub (dev : String) : String :=
  match dev.data with
  | 'h' :: 'd' :: rest => String.mk ('v' :: 'd' :: rest)
  | 's' :: 'd' :: rest => String.mk ('v' :: 'd' :: rest)
  | _ => dev

/-- The change record and the `new_dev` update of the `target` half of the
disk loop body (`none` state on read models the `UnboundLocalError`). -/
def diskTargetInfo (st : Option String) (cs : List Node) :
    Except Err (List Change × Option String) :=
  match findC "target" cs with
  | none => .ok ([], st)
  | some tNode =>
    let ta := tNode.attrsOf
    let oldBus := getD ta "bus" "unknown"
    if busLegacy oldBus then
      let oldDev := getD ta "dev" ""
      let st' := if oldDev == "" then st else some (devSub oldDev)
      match st' with
      | none => .error .nameError
      | some nd =>
        .ok ([("disk_bus", oldBus ++ " (" ++ oldDev ++ ")", "virtio (" ++ nd ++ ")")], st')
    else .ok ([], st)

/-- The attribute mutation of the `target` half of the disk loop body:
`bus` becomes `virtio` and a nonempty `dev` gets the prefix rewrite. -/
def diskTargetMut (cs : List Node) : List Node :=
  match findC "target" cs with
  | none => cs
  | some tNode =>
    let ta := tNode.attrsOf
    if busLegacy (getD ta "bus" "unknown") then
      let oldDev := getD ta "dev" ""
      updFirst (isTag "target")
        (fun n =>
          match n with
          | .elem tg a gcs =>
            let a1 := setA a "bus" "virtio"
            .elem tg (if oldDev == "" then a1 else setA a1 "dev" (devSub oldDev)) gcs
          | m => m) cs
    else cs

/-- The change record of the `driver` half of the disk loop body. -/
def diskDriverInfo (cs : List Node) : List Change :=
  match findC "driver" cs with
  | none => []
  | some d =>
    let da := d.attrsOf
    let oldCache := getD da "cache" "default"
    let oldDiscard := getD da "discard" "none"
    let oldIo := getD da "io" "default"
    if oldCache == "writeback" && oldDiscard == "unmap" && oldIo == "threads" then []
    else
      [("disk_cache",
        "cache=" ++ oldCache ++ ", discard=" ++ oldDiscard ++ ", io=" ++ oldIo,
        "cache=writeback, discard=unmap, io=threads")]

/-- The attribute mutation of the `driver` half of the disk loop body. -/
def diskDriverMut (cs : List Node) : List Node :=
  match findC "driver" cs with
  | none => cs
  | some d =>
    let da := d.attrsOf
    if getD da "cache" "default" == "writeback" && getD da "discard" "none" == "unmap" &&
        getD da "io" "default" == "threads" then cs
    else
      updFirst (isTag "driver")
        (fun n =>
          match n with
          | .elem tg a gcs =>
            .elem tg (setA (setA (setA a "cache" "writeback") "discard" "unmap") "io" "threads") gcs
          | m => m) cs

/-- `//disk[@device='disk']` match. -/
def isDiskDisk (t : String) (a : Attrs) : Bool :=
  t == "disk" && getD a "device" "" == "disk"

/- The disk pass over a node, following the document-order snapshot iteration
of `root.xpath("//disk[@device='disk']")`: at a matched disk the loop body's
records and its `new_dev` update are produced before the descendants' (the
Python loop visits the disk first), while the body's attribute mutations are
applied to the recursed children.  The body only rewrites attributes of the
disk's `target`/`driver` children, which the recursion never touches (a
node's own attributes are never modified by the passes), so this coincides
with the in-place Python processing, node by node. -/
mutual
def diskN (st : Option String) : Node → Except Err (Node × List Change × Option String)
  | .text s => .ok (.text s, [], st)
  | .elem t a cs =>
    if isDiskDisk t a then
      match diskTargetInfo st cs with
      | .error e => .error e
      | .ok (chA, stA) =>
        match diskL stA cs with
        | .error e => .error e
        | .ok (cs2, ch2, st2) =>
          .ok (.elem t a (diskDriverMut (diskTargetMut cs2)),
               chA ++ diskDriverInfo cs ++ ch2, st2)
    else
      match diskL st cs with
      | .error e => .error e
      | .ok (cs2, ch2, st2) => .ok (.elem t a cs2, ch2, st2)
  termination_by structural nd => nd

def diskL (st : Option String) : List Node → Except Err (List Node × List Change × Option String)
  | [] => .ok ([], [], st)
  | n :: ns' =>
    match diskN st n with
    | .error e => .error e
    | .ok (n', ch1, st1) =>
      match diskL st1 ns' with
      | .error e => .error e
      | .ok (ns2, ch2, st2) => .ok (n' :: ns2, ch1 ++ ch2, st2)
  termination_by structural ns => ns
end

/-! ### NIC rule (`nic_model`)

`for iface in root.xpath("//interface")`: the `type` of the `model` child is
rewritten when it is a legacy NIC model.  The rule body only touches the
attributes of the matched interface's `model` child and the recursion never
touches a node's own attributes, so applying the body after descending into
the children is equivalent to the Python snapshot iteration; the change
records are still concatenated in document order (body first). -/

def nicLegacy (t : String) : Bool := t == "rtl8139" || t == "e1000" || t == "e1000e"

/-- The NIC loop body, acting on the children of one `interface` element. -/
def nicStep (cs : List Node) : List Node × List Change :=
  match findC "model" cs with
  | none => (cs, [])
  | some m =>
    let old := getD m.attrsOf "type" "unknown"
    if nicLegacy old then
      (updFirst (isTag "model") (setAttrOn "type" "virtio") cs, [("nic_model", old, "virtio")])
    else (cs, [])

mutual
def nicN : Node → Node × List Change
  | .text s => (.text s, [])
  | .elem t a cs =>
    let r := nicL cs
    if t == "interface" then
      let s := nicStep r.1
      (.elem t a s.1, s.2 ++ r.2)
    else (.elem t a r.1, r.2)

def nicL : List Node → List Node × List Change
  | [] => ([], [])
  | c :: cs =>
    let rc := nicN c
    let rs := nicL cs
    (rc.1 :: rs.1, rc.2 ++ rs.2)
end

/-! ### Video rule (`video_model` and `video_accel`)

`for video in root.xpath("//video")`: a legacy model type is rewritten to
virtio with `heads=1`, `primary=yes`, and an `acceleration` sub-node with
`accel3d=yes` is ensured; a `video_accel` record is emitted (after the
`video_model` record) exactly when the previous `accel3d` value was not
`yes`. -/

def videoLegacy (t : String) : Bool := t == "qxl" || t == "vga" || t == "cirrus"

/-- In-place update of a matched video's `model` child: set the three
attributes, then create-or-update the `acceleration` sub-node. -/
def videoModelUpd : Node → Node
  | .elem t a cs =>
    let a3 := setA (setA (setA a "type" "virtio") "heads" "1") "primary" "yes"
    match findC "acceleration" cs with
    | some _ => .elem t a3 (updFirst (isTag "acceleration") (setAttrOn "accel3d" "yes") cs)
    | none => .elem t a3 (cs ++ [.elem "acceleration" [("accel3d", "yes")] []])
  | n => n

/-- The video loop body, acting on the children of one `video` element. -/
def videoStep (cs : List Node) : List Node × List Change :=
  match findC "model" cs with
  | none => (cs, [])
  | some m =>
    let old := getD m.attrsOf "type" "unknown"
    if videoLegacy old then
      let oldAccel :=
        match findC "acceleration" m.childrenOf with
        | some acc => getD acc.attrsOf "accel3d" "no"
        | none => "no"
      (updFirst (isTag "model") videoModelUpd cs,
       ("video_model", old, "virtio") ::
         (if oldAccel == "yes" then []
          else [("video_accel", "accel3d=" ++ oldAccel, "accel3d=yes")]))
    else (cs, [])

mutual
def videoN : Node → Node × List Change
  | .text s => (.text s, [])
  | .elem t a cs =>
    let r := videoL cs
    if t == "video" then
      let s := videoStep r.1
      (.elem t a s.1, s.2 ++ r.2)
    else (.elem t a r.1, r.2)

def videoL : List Node → List Node × List Change
  | [] => ([], [])
  | c :: cs =>
    let rc := videoN c
    let rs := videoL cs
    (rc.1 :: rs.1, rc.2 ++ rs.2)
end

/-! ### SPICE GL rule (`spice_gl`) -/

def isSpiceGraphics (t : String) (a : Attrs) : Bool :=
  t == "graphics" && getD a "type" "" == "spice"

/-- In-place update of a `gl` node: `enable=yes`, plus the default render
node path when `rendernode` is absent. -/
def glUpd : Node → Node
  | .elem t a cs =>
    let a1 := setA a "enable" "yes"
    .elem t (if (getA a1 "rendernode").isSome then a1
             else setA a1 "rendernode" "/dev/dri/renderD128") cs
  | n => n

/-- The SPICE loop body, acting on the children of one
`graphics[@type='spice']` element: the `gl` sub-node is created when absent
(always appended), then enabled unless already enabled. -/
def spiceStep (cs : List Node) : List Node × List Change :=
  let cs0 := if (findC "gl" cs).isSome then cs else cs ++ [.elem "gl" [] []]
  let glA :=
    match findC "gl" cs0 with
    | some g => g.attrsOf
    | none => []
  let old := getD glA "enable" "no"
  if old == "yes" then (cs0, [])
  else (updFirst (isTag "gl") glUpd cs0, [("spice_gl", "enable=" ++ old, "enable=yes")])

mutual
def spiceN : Node → Node × List Change
  | .text s => (.text s, [])
  | .elem t a cs =>
    let r := spiceL cs
    if isSpiceGraphics t a then
      let s := spiceStep r.1
      (.elem t a s.1, s.2 ++ r.2)
    else (.elem t a r.1, r.2)

def spiceL : List Node → List Node × List Change
  | [] => ([], [])
  | c :: cs =>
    let rc := spiceN c
    let rs := spiceL cs
    (rc.1 :: rs.1, rc.2 ++ rs.2)
end

/-! ### CPU rules (`cpu_mode` and `cpu_topology`)

These act on the direct children of the root only (`root.find("cpu")`,
`root.find("vcpu")`). -/

/-- Decimal digit character. -/
def digChar : Nat → Char
  | 0 => '0' | 1 => '1' | 2 => '2' | 3 => '3' | 4 => '4'
  | 5 => '5' | 6 => '6' | 7 => '7' | 8 => '8' | _ => '9'

def natDigits (fuel n : Nat) (acc : List Char) : List Char :=
  match fuel with
  | 0 => acc
  | f + 1 => if n < 10 then digChar n :: acc else natDigits f (n / 10) (digChar (n % 10) :: acc)

/-- Decimal representation of an integer, as Python `str(vcpu_count)` and the
f-string interpolation render it. -/
def pyStrInt (n : Int) : String :=
  match n with
  | .ofNat m => String.mk (natDigits (m + 1) m [])
  | .negSucc m => "-" ++ String.mk (natDigits (m + 2) (m + 1) [])

/-- The `topology` sub-node created by the CPU rules. -/
def topoNode (n : Int) : Node :=
  .elem "topology"
    [("sockets", "1"), ("dies", "1"), ("clusters", "1"), ("cores", pyStrInt n), ("threads", "1")] []

/-- The `cpu_topology` change record. -/
def topoChange (n : Int) : Change :=
  ("cpu_topology", "none", "1 socket × " ++ pyStrInt n ++ " cores × 1 thread")

/-- The `cpu` node created when the document has none. -/
def cpuNode (n : Int) : Node :=
  .elem "cpu" [("mode", "host-passthrough"), ("check", "none"), ("migratable", "on")] [topoNode n]

/-- Appends a child to an element node. -/
def appendChildOn (x : Node) : Node → Node
  | .elem t a cs => .elem t a (cs ++ [x])
  | n => n

/-- The CPU section of `optimize_xml`, acting on the root's children. -/
def cpuStep (cs : List Node) : Except Err (List Node × List Change) :=
  match findC "cpu" cs with
  | some c =>
    let oldMode := getD c.attrsOf "mode" "custom"
    let modeUpd := !(oldMode == "host-passthrough")
    let ch1 : List Change := if modeUpd then [("cpu_mode", oldMode, "host-passthrough")] else []
    let cs1 :=
      if modeUpd then
        updFirst (isTag "cpu")
          (fun cn => setAttrOn "migratable" "on"
            (setAttrOn "check" "none" (setAttrOn "mode" "host-passthrough" cn))) cs
      else cs
    match findC "vcpu" cs with
    | some v =>
      match pyIntOpt (pyOrOne v.textOf) with
      | none => .error .valueError
      | some n =>
        if (findC "topology" c.childrenOf).isNone then
          .ok (updFirst (isTag "cpu") (appendChildOn (topoNode n)) cs1, ch1 ++ [topoChange n])
        else
          .ok (cs1, ch1)
    | none => .ok (cs1, ch1)
  | none =>
    match findC "vcpu" cs with
    | some v =>
      match v.textOf with
      | none => .error .typeError
      | some s =>
        match pyIntOpt s with
        | none => .error .valueError
        | some n =>
          .ok (insAfter (isTag "vcpu") (cpuNode n) cs,
               [("cpu_mode", "default", "host-passthrough"), topoChange n])
    | none =>
      .ok (cs ++ [cpuNode 1], [("cpu_mode", "default", "host-passthrough"), topoChange 1])

/-! ### The whole transformation -/

/-- The tree-level body of `optimize_xml` (lines 157–279 of the source):
disk, NIC, video, SPICE and CPU rules in that order, each run once over the
same document, with the change records accumulated in that order.  The root
element is given by its tag, attributes and children. -/
def optimizeDoc (t : String) (a : Attrs) (cs : List Node) :
    Except Err (Node × List Change) :=
  match diskN none (.elem t a cs) with
  | .error e => .error e
  | .ok (n1, c1, _) =>
    let r2 := nicN n1
    let r3 := videoN r2.1
    let r4 := spiceN r3.1
    match r4.1 with
    | .elem t4 a4 cs4 =>
      match cpuStep cs4 with
      | .error e => .error e
      | .ok (cs5, c5) => .ok (.elem t4 a4 cs5, c1 ++ r2.2 ++ r3.2 ++ r4.2 ++ c5)
    | .text s => .ok (.text s, c1 ++ r2.2 ++ r3.2 ++ r4.2)

/-! ### Serialization (`etree.tostring(root, encoding='unicode', pretty_print=True)`)

libxml2's formatted serializer indents the children of an element only when
none of its immediate children is a text node; once a text child is seen,
formatting is disabled for the entire subtree.  lxml's pretty printer indents
with two spaces per level and the document dump appends one final newline
after the root element. -/

def escChars (f : Char → List Char) : List Char → List Char
  | [] => []
  | c :: cs => f c ++ escChars f cs

/-- Escape of one text character (libxml2 escapes `&`, `<`, `>`). -/
def escTextF (c : Char) : List Char :=
  if c == '&' then "&amp;".data
  else if c == '<' then "&lt;".data
  else if c == '>' then "&gt;".data
  else [c]

/-- Escaping of text content. -/
def escText (s : String) : String :=
  String.mk (escChars escTextF s.data)

/-- Escape of one attribute-value character (libxml2 additionally escapes
the quote and whitespace control characters). -/
def escAttrF (c : Char) : List Char :=
  if c == '&' then "&amp;".data
  else if c == '<' then "&lt;".data
  else if c == '>' then "&gt;".data
  else if c == '"' then "&quot;".data
  else if c == '\n' then "&#10;".data
  else if c == '\t' then "&#9;".data
  else [c]

/-- Escaping of attribute values. -/
def escAttr (s : String) : String :=
  String.mk (escChars escAttrF s.data)

/-- Two spaces per indentation level (the lxml pretty-print indent). -/
def spacesIndent : Nat → String
  | 0 => ""
  | n + 1 => "  " ++ spacesIndent n

/-- Serialized attribute list, in authored order (never reordered). -/
def attrsStr (a : Attrs) : String :=
  String.join (a.map (fun p => " " ++ p.1 ++ "=\"" ++ escAttr p.2 ++ "\""))

/-- Does the element have an immediate text child (the libxml2 condition that
disables formatting)? -/
def hasTextChild (cs : List Node) : Bool :=
  cs.any (fun c => match c with | .text _ => true | .elem _ _ _ => false)

mutual
def serN (fmt : Bool) (ind : Nat) (n : Node) : String :=
  match n with
  | .text s => escText s
  | .elem t a cs =>
    if cs.isEmpty then "<" ++ t ++ attrsStr a ++ "/>"
    else if fmt && !hasTextChild cs then
      "<" ++ t ++ attrsStr a ++ ">" ++ "\n" ++ serIndL (ind + 1) cs ++
        spacesIndent ind ++ "</" ++ t ++ ">"
    else
      "<" ++ t ++ attrsStr a ++ ">" ++ serFlatL cs ++ "</" ++ t ++ ">"

def serIndL (ind : Nat) (cs : List Node) : String :=
  match cs with
  | [] => ""
  | c :: rest => spacesIndent ind ++ serN true ind c ++ "\n" ++ serIndL ind rest

def serFlatL (cs : List Node) : String :=
  match cs with
  | [] => ""
  | c :: rest => serN false 0 c ++ serFlatL rest
end

/-- `etree.tostring(root, encoding='unicode', pretty_print=True)`: formatted
dump of the root element followed by the final document newline. -/
def canonDoc (n : Node) : String := serN true 0 n ++ "\n"

/- Tree-level model of `etree.fromstring (canonDoc n)`: re-parsing the
formatted serialization yields the same tree with the indentation whitespace
that the serializer emitted materialized as text children (the parser keeps
blank text).  Where the serializer disabled formatting, the subtree
re-parses to itself. -/
mutual
def wsN (fmt : Bool) (ind : Nat) (n : Node) : Node :=
  match n with
  | .text s => .text s
  | .elem t a cs =>
    if cs.isEmpty then .elem t a cs
    else if fmt && !hasTextChild cs then
      .elem t a (wsIndL (ind + 1) cs ++ [.text ("\n" ++ spacesIndent ind)])
    else
      .elem t a (wsFlatL cs)

def wsIndL (ind : Nat) (cs : List Node) : List Node :=
  match cs with
  | [] => []
  | c :: rest => .text ("\n" ++ spacesIndent ind) :: wsN true ind c :: wsIndL ind rest

def wsFlatL (cs : List Node) : List Node :=
  match cs with
  | [] => []
  | c :: rest => wsN false 0 c :: wsFlatL rest
end

/-! ### Parsing (`etree.fromstring`)

A recursive-descent model of the XML dialect accepted for the VM descriptor:
an optional declaration, elements with double-quoted attributes, nested
elements and text.  `none` models the `XMLSyntaxError` raised on
non-well-formed input (entity references inside text are not modelled). -/

def nameChar (c : Char) : Bool :=
  c.isAlphanum || c == '_' || c == '-' || c == '.' || c == ':'

def wsChar (c : Char) : Bool :=
  c == ' ' || c == '\n' || c == '\t' || c == '\r'

def skipWs (cs : List Char) : List Char :=
  match cs with
  | c :: rest => if wsChar c then skipWs rest else cs
  | [] => []

def takeNameAux (acc : List Char) : List Char → List Char × List Char
  | [] => (acc.reverse, [])
  | c :: rest => if nameChar c then takeNameAux (c :: acc) rest else (acc.reverse, c :: rest)

def takeValueAux (acc : List Char) : List Char → List Char × List Char
  | [] => (acc.reverse, [])
  | c :: rest => if c == '"' then (acc.reverse, c :: rest) else takeValueAux (c :: acc) rest

def takeTextAux (acc : List Char) : List Char → List Char × List Char
  | [] => (acc.reverse, [])
  | c :: rest => if c == '<' then (acc.reverse, c :: rest) else takeTextAux (c :: acc) rest

def pAttrs : Nat → List Char → Option (Attrs × List Char)
  | 0, _ => none
  | fuel + 1, cs =>
    match skipWs cs with
    | [] => some ([], [])
    | c :: rest =>
      if nameChar c then
        match takeNameAux [] (c :: rest) with
        | (nm, cs2) =>
          match cs2 with
          | '=' :: '"' :: cs3 =>
            match takeValueAux [] cs3 with
            | (v, '"' :: cs4) =>
              match pAttrs fuel cs4 with
              | some (ats, cs5) => some ((String.mk nm, String.mk v) :: ats, cs5)
              | none => none
            | _ => none
          | _ => none
      else some ([], c :: rest)

mutual
def pNode : Nat → List Char → Option (Node × List Char)
  | 0, _ => none
  | fuel + 1, cs =>
    match cs with
    | '<' :: cs1 =>
      match takeNameAux [] cs1 with
      | ([], _) => none
      | (nm, cs2) =>
        match pAttrs (fuel + 1) cs2 with
        | none => none
        | some (ats, cs3) =>
          match cs3 with
          | '/' :: '>' :: cs4 => some (.elem (String.mk nm) ats [], cs4)
          | '>' :: cs4 =>
            match pCont fuel cs4 with
            | none => none
            | some (children, cs5) =>
              match cs5 with
              | '<' :: '/' :: cs6 =>
                match takeNameAux [] cs6 with
                | (nm2, cs7) =>
                  if nm2 == nm then
                    match skipWs cs7 with
                    | '>' :: cs8 => some (.elem (String.mk nm) ats children, cs8)
                    | _ => none
                  else none
              | _ => none
          | _ => none
    | _ => none

def pCont : Nat → List Char → Option (List Node × List Char)
  | 0, _ => none
  | fuel + 1, cs =>
    match cs with
    | [] => none
    | '<' :: '/' :: _ => some ([], cs)
    | '<' :: _ =>
      match pNode fuel cs with
      | none => none
      | some (n, cs1) =>
        match pCont fuel cs1 with
        | some (ns, cs2) => some (n :: ns, cs2)
        | none => none
    | _ =>
      match takeTextAux [] cs with
      | (txt, cs1) =>
        match pCont fuel cs1 with
        | some (ns, cs2) => some (.text (String.mk txt) :: ns, cs2)
        | none => none
end

def dropTilQ : List Char → Option (List Char)
  | [] => none
  | '?' :: '>' :: rest => some rest
  | _ :: rest => dropTilQ rest

/-- Skip an `<?xml ...?>` declaration if present. -/
def skipDecl (cs : List Char) : Option (List Char) :=
  match cs with
  | '<' :: '?' :: rest => dropTilQ rest
  | _ => some cs

/-- Model of `etree.fromstring(xml_str.encode())`: the root element of the
document, or `none` for non-well-formed input (`XMLSyntaxError`). -/
def parseRoot (s : String) : Option (String × Attrs × List Node) :=
  match skipDecl (skipWs s.data) with
  | none => none
  | some cs1 =>
    match pNode (2 * cs1.length + 2) (skipWs cs1) with
    | none => none
    | some (.elem t a ch, rest) =>
      if (skipWs rest).isEmpty then some (t, a, ch) else none
    | some (.text _, _) => none

/-- The XML declaration line prepended by `optimize_xml` when the serialized
output does not already start with one. -/
def xmlDecl : String := "<?xml version=\"1.0\" encoding=\"UTF-8\"?>\n"

def ensureDecl (s : String) : String :=
  if s.startsWith "<?xml" then s else xmlDecl ++ s

/-- `optimize_xml` on the raw document text (lines 149–287 of the source):
parse, apply the rules, serialize with the declaration ensured.  On any of
the modelled Python exceptions no document and no change records are
produced. -/
def optimize_xml (s : String) : Except Err (String × List Change) :=
  match parseRoot s with
  | none => .error .parseError
  | some (t, a, cs) =>
    match optimizeDoc t a cs with
    | .error e => .error e
    | .ok (n, ch) => .ok (ensureDecl (canonDoc n), ch)

/-! ### State predicates: no rule guard fires anywhere

One decidable predicate per traversal rule ("the rule's trigger condition is
false at every node"), plus one for the root-level CPU rules; used to state
and prove idempotency. -/

/-- The disk rule does not fire at an element with this tag/attrs/children. -/
def diskLocalOK (t : String) (a : Attrs) (cs : List Node) : Bool :=
  if isDiskDisk t a then
    (match findC "target" cs with
     | some tn => !busLegacy (getD tn.attrsOf "bus" "unknown")
     | none => true) &&
    (match findC "driver" cs with
     | some d =>
       getD d.attrsOf "cache" "default" == "writeback" &&
       getD d.attrsOf "discard" "none" == "unmap" &&
       getD d.attrsOf "io" "default" == "threads"
     | none => true)
  else true

mutual
def diskOKn : Node → Bool
  | .text _ => true
  | .elem t a cs => diskLocalOK t a cs && diskOKl cs

def diskOKl : List Node → Bool
  | [] => true
  | c :: cs => diskOKn c && diskOKl cs
end

/-- The NIC rule does not fire at an element with this tag/children. -/
def nicLocalOK (t : String) (cs : List Node) : Bool :=
  if t == "interface" then
    match findC "model" cs with
    | some m => !nicLegacy (getD m.attrsOf "type" "unknown")
    | none => true
  else true

mutual
def nicOKn : Node → Bool
  | .text _ => true
  | .elem t _ cs => nicLocalOK t cs && nicOKl cs

def nicOKl : List Node → Bool
  | [] => true
  | c :: cs => nicOKn c && nicOKl cs
end

/-- The video rule does not fire at an element with this tag/children. -/
def videoLocalOK (t : String) (cs : List Node) : Bool :=
  if t == "video" then
    match findC "model" cs with
    | some m => !videoLegacy (getD m.attrsOf "type" "unknown")
    | none => true
  else true

mutual
def videoOKn : Node → Bool
  | .text _ => true
  | .elem t _ cs => videoLocalOK t cs && videoOKl cs

def videoOKl : List Node → Bool
  | [] => true
  | c :: cs => videoOKn c && videoOKl cs
end

/-- The SPICE GL rule does not fire at an element with this tag/attrs/children. -/
def spiceLocalOK (t : String) (a : Attrs) (cs : List Node) : Bool :=
  if isSpiceGraphics t a then
    match findC "gl" cs with
    | some g => getD g.attrsOf "enable" "no" == "yes"
    | none => false
  else true

mutual
def spiceOKn : Node → Bool
  | .text _ => true
  | .elem t a cs => spiceLocalOK t a cs && spiceOKl cs

def spiceOKl : List Node → Bool
  | [] => true
  | c :: cs => spiceOKn c && spiceOKl cs
end

/-- The CPU rules do not fire on (and do not abort at) these root children:
the `cpu` child exists with the passthrough mode, and when a `vcpu` child
exists its count parses and the `topology` sub-node is present. -/
def cpuOKroot (cs : List Node) : Bool :=
  match findC "cpu" cs with
  | none => false
  | some c =>
    getD c.attrsOf "mode" "custom" == "host-passthrough" &&
    (match findC "vcpu" cs with
     | none => true
     | some v => (pyIntOpt (pyOrOne v.textOf)).isSome && (findC "topology" c.childrenOf).isSome)

/-- No rule of the whole pass fires on the document. -/
def optimizedDoc (t : String) (a : Attrs) (cs : List Node) : Bool :=
  diskOKn (.elem t a cs) && nicOKn (.elem t a cs) && videoOKn (.elem t a cs) &&
    spiceOKn (.elem t a cs) && cpuOKroot cs

/-! ### Structure embedding (nothing is deleted)

`embN n m` holds when every element and text node of `n` appears in `m`, in
order: equal tags, every attribute name still present (values may differ),
and the children of `n` embed into a subsequence of the children of `m`. -/

/-- Every attribute name of `a` is present in `b`. -/
def keysSubB (a b : Attrs) : Bool :=
  a.all (fun p => (getA b p.1).isSome)

mutual
def embN (n m : Node) : Bool :=
  match n, m with
  | .text s, .text s2 => s == s2
  | .elem t a cs, .elem t2 a2 cs2 => t == t2 && keysSubB a a2 && embL cs cs2
  | _, _ => false

def embL (l r : List Node) : Bool :=
  match l, r with
  | [], _ => true
  | _ :: _, [] => false
  | x :: xs, y :: ys => (embN x y && embL xs ys) || embL (x :: xs) ys
end

/-! ### Rule-order checker (for the record-ordering claim) -/

/-- Position of a rule key in the fixed rule order of §4.2 of the spec. -/
def ruleOrderIdx : String → Nat
  | "disk_bus" => 0
  | "disk_cache" => 1
  | "nic_model" => 2
  | "video_model" => 3
  | "video_accel" => 4
  | "spice_gl" => 5
  | "cpu_mode" => 6
  | "cpu_topology" => 7
  | _ => 8

/-- Is the record sequence sorted by rule (all records of an earlier rule
before all records of a later rule)? -/
def ruleSortedB : List Change → Bool
  | [] => true
  | [_] => true
  | c1 :: c2 :: rest =>
    decide (ruleOrderIdx c1.1 ≤ ruleOrderIdx c2.1) && ruleSortedB (c2 :: rest)

/-! ### Concrete documents used by the individual claims -/

/-- A document whose only non-optimized feature is one IDE disk
(`bus="ide"`, `dev="hda"`); the `cpu` node is already in passthrough mode
and there is no `vcpu` node. -/
def docDiskOnly : List Node :=
  [.elem "devices" []
     [.elem "disk" [("type", "file"), ("device", "disk")]
        [.elem "target" [("dev", "hda"), ("bus", "ide")] []]],
   .elem "cpu" [("mode", "host-passthrough")] []]

/-- The expected transform of `docDiskOnly`. -/
def docDiskOnlyOut : Node :=
  .elem "domain" []
    [.elem "devices" []
       [.elem "disk" [("type", "file"), ("device", "disk")]
          [.elem "target" [("dev", "vda"), ("bus", "virtio")] []]],
     .elem "cpu" [("mode", "host-passthrough")] []]

/-- A document with a `vcpu` count of 4, no `cpu` node, and a trailing
sibling after the `vcpu` node. -/
def docVcpu4 : List Node :=
  [.elem "vcpu" [] [.text "4"], .elem "os" [] []]

/-- The expected transform of `docVcpu4`: the `cpu` node is inserted right
after the `vcpu` node (before the `os` node). -/
def docVcpu4Out : Node :=
  .elem "domain" [] [.elem "vcpu" [] [.text "4"], cpuNode 4, .elem "os" [] []]

/-- A disk whose `target` has a legacy bus but no `dev` attribute: the
change record then reads the never-assigned Python local `new_dev`. -/
def docDiskNoDev : List Node :=
  [.elem "disk" [("device", "disk")] [.elem "target" [("bus", "ide")] []]]

/-- Two legacy disks, each with a `driver` needing the cache triple: the
records interleave per disk (`disk_bus, disk_cache, disk_bus, disk_cache`). -/
def docTwoDisks : List Node :=
  [.elem "devices" []
     [.elem "disk" [("device", "disk")]
        [.elem "driver" [("name", "qemu")] [],
         .elem "target" [("dev", "hda"), ("bus", "ide")] []],
      .elem "disk" [("device", "disk")]
        [.elem "driver" [("name", "qemu")] [],
         .elem "target" [("dev", "sdb"), ("bus", "scsi")] []]],
   .elem "cpu" [("mode", "host-passthrough")] []]

/-- A video node whose model is already `virtio` but whose acceleration
sub-node does not have 3D acceleration enabled; everything else optimized. -/
def docVideoNoAccel : List Node :=
  [.elem "video" []
     [.elem "model" [("type", "virtio")] [.elem "acceleration" [("accel3d", "no")] []]],
   .elem "cpu" [("mode", "host-passthrough")] []]

/-- Same top structure of two nodes: same answers to every `isTag` query and
the same attribute list.  Preserved by every traversal pass, which never
modifies a node's own tag or attributes from its own call. -/
def topSame (x y : Node) : Prop :=
  (∀ t, isTag t x = isTag t y) ∧ x.attrsOf = y.attrsOf

/-- Pointwise `topSame` on children lists. -/
def TopPres : List Node → List Node → Prop := List.Forall₂ topSame

/-! ## Helper lemmas -/

/-- Mutual induction principle for the nested `Node` / `List Node` tree. -/
theorem nodeInd (P : Node → Prop) (Q : List Node → Prop)
    (he : ∀ t a cs, Q cs → P (.elem t a cs))
    (ht : ∀ s, P (.text s))
    (hn : Q [])
    (hc : ∀ n ns, P n → Q ns → Q (n :: ns)) :
    (∀ n, P n) ∧ (∀ ns, Q ns) := by
  have hP : ∀ n, P n := fun n => Node.rec he ht hn hc n
  refine ⟨hP, ?_⟩
  intro ns
  induction ns with
  | nil => exact hn
  | cons x xs ih => exact hc x xs (hP x) ih

theorem escChars_append (f : Char → List Char) (l1 l2 : List Char) :
    escChars f (l1 ++ l2) = escChars f l1 ++ escChars f l2 := by
  induction l1 with
  | nil => rfl
  | cons c cs ih => simp [escChars, ih]

theorem spaces_chars (k : Nat) : ∀ c ∈ (spacesIndent k).data, c = ' ' := by
  induction k with
  | zero => intro c hc; simp [spacesIndent] at hc
  | succ m ih =>
    intro c hc
    simp only [spacesIndent] at hc
    rw [String.data_append] at hc
    rcases List.mem_append.mp hc with h | h
    · rw [show ("  " : String).data = [' ', ' '] from rfl] at h
      simp at h
      exact h
    · exact ih c h

theorem escText_ws (k : Nat) :
    escText ("\n" ++ spacesIndent k) = "\n" ++ spacesIndent k := by
  unfold escText
  have hdata : ("\n" ++ spacesIndent k).data = '\n' :: (spacesIndent k).data := by
    rw [String.data_append]; rfl
  rw [hdata]
  have hid : ∀ l : List Char, (∀ c ∈ l, c = ' ') → escChars escTextF l = l := by
    intro l hl
    induction l with
    | nil => rfl
    | cons c cs ih =>
      have hc : c = ' ' := hl c (by simp)
      subst hc
      have hsp : escTextF ' ' = [' '] := rfl
      simp only [escChars, hsp, List.singleton_append]
      rw [ih (fun c hc => hl c (by simp [hc]))]
  have : escChars escTextF ('\n' :: (spacesIndent k).data) =
      '\n' :: (spacesIndent k).data := by
    have hnl : escTextF '\n' = ['\n'] := rfl
    simp only [escChars, hnl, List.singleton_append]
    rw [hid _ (spaces_chars k)]
  rw [this, ← hdata]

theorem serFlatL_append (l1 l2 : List Node) :
    serFlatL (l1 ++ l2) = serFlatL l1 ++ serFlatL l2 := by
  induction l1 with
  | nil => simp [serFlatL]
  | cons c cs ih => simp [serFlatL, ih, String.append_assoc]

theorem serN_false_ind (n : Node) (i : Nat) : serN false i n = serN false 0 n := by
  cases n <;> rfl

theorem ws_false_id :
    (∀ n, ∀ ind, wsN false ind n = n) ∧ (∀ cs, wsFlatL cs = cs) := by
  have h := nodeInd (fun n => ∀ ind, wsN false ind n = n) (fun cs => wsFlatL cs = cs)
    ?he ?ht ?hn ?hc
  · exact ⟨fun n ind => h.1 n ind, h.2⟩
  case he =>
    intro t a cs hQ ind
    by_cases hemp : cs.isEmpty
    · simp [wsN, hemp]
    · simp [wsN, hemp, hQ]
  case ht => intro s ind; rfl
  case hn => rfl
  case hc =>
    intro n ns hP hQ
    simp [wsFlatL, hP 0, hQ]

theorem ser_ws_fixed :
    (∀ n, ∀ f ind, serN f ind (wsN true ind n) = serN true ind n) ∧
    (∀ cs, ∀ ind, serFlatL (wsIndL ind cs) ++ "\n" = "\n" ++ serIndL ind cs) := by
  refine nodeInd (fun n => ∀ f ind, serN f ind (wsN true ind n) = serN true ind n)
    (fun cs => ∀ ind, serFlatL (wsIndL ind cs) ++ "\n" = "\n" ++ serIndL ind cs) ?he ?ht ?hn ?hc
  case ht => intro s f ind; rfl
  case hn =>
    intro ind
    simp [wsIndL, serFlatL, serIndL]
  case hc =>
    intro c cs hP hQ ind
    simp only [wsIndL, serFlatL, serIndL]
    rw [show serN false 0 (Node.text ("\n" ++ spacesIndent ind)) =
          escText ("\n" ++ spacesIndent ind) from rfl,
        escText_ws, ← serN_false_ind (wsN true ind c) ind, hP false ind]
    simp only [String.append_assoc]
    rw [hQ ind]
  case he =>
    intro t a cs hQ f ind
    by_cases hemp : cs.isEmpty
    · have h0 : cs = [] := by
        cases cs
        · rfl
        · simp [List.isEmpty] at hemp
      subst h0
      rfl
    · by_cases htxt : hasTextChild cs
      · have hws : wsN true ind (.elem t a cs) = .elem t a cs := by
          simp [wsN, hemp, htxt, ws_false_id.2 cs]
        rw [hws]
        cases f
        · simp [serN, hemp, htxt]
        · rfl
      · have hws : wsN true ind (.elem t a cs) =
            .elem t a (wsIndL (ind + 1) cs ++ [.text ("\n" ++ spacesIndent ind)]) := by
          simp [wsN, hemp, htxt]
        rw [hws]
        have hemp2 : (wsIndL (ind + 1) cs ++ [Node.text ("\n" ++ spacesIndent ind)]).isEmpty = false := by
          simp
        have htxt2 : hasTextChild (wsIndL (ind + 1) cs ++ [Node.text ("\n" ++ spacesIndent ind)]) = true := by
          simp [hasTextChild, List.any_append]
        simp only [serN, hemp2, htxt2, hemp, htxt, Bool.not_true, Bool.not_false,
          Bool.and_false, Bool.and_true, if_true, if_false]
        simp only [Bool.false_eq_true, if_false]
        rw [serFlatL_append]
        simp only [serFlatL]
        rw [show serN false 0 (Node.text ("\n" ++ spacesIndent ind)) =
              escText ("\n" ++ spacesIndent ind) from rfl, escText_ws, String.append_empty]
        rw [← String.append_assoc (serFlatL (wsIndL (ind + 1) cs)) "\n" (spacesIndent ind)]
        rw [hQ (ind + 1)]
        simp only [String.append_assoc]



theorem nicStep_keys (cs : List Node) : ∀ r ∈ (nicStep cs).2, r.1 = "nic_model" := by
  unfold nicStep
  cases h : findC "model" cs with
  | none => simp
  | some m =>
    by_cases hl : nicLegacy (getD m.attrsOf "type" "unknown")
    · simp [hl]
    · simp [hl]

theorem nic_keys :
    (∀ n, ∀ r ∈ (nicN n).2, r.1 = "nic_model") ∧
    (∀ cs, ∀ r ∈ (nicL cs).2, r.1 = "nic_model") := by
  refine nodeInd (fun n => ∀ r ∈ (nicN n).2, r.1 = "nic_model")
    (fun cs => ∀ r ∈ (nicL cs).2, r.1 = "nic_model") ?he ?ht ?hn ?hc
  case ht => intro s r hr; simp [nicN] at hr
  case hn => intro r hr; simp [nicL] at hr
  case hc =>
    intro c cs hP hQ r hr
    simp only [nicL, List.mem_append] at hr
    rcases hr with h | h
    · exact hP r h
    · exact hQ r h
  case he =>
    intro t a cs hQ r hr
    simp only [nicN] at hr
    split at hr
    · rcases List.mem_append.mp hr with h | h
      · exact nicStep_keys _ r h
      · exact hQ r h
    · exact hQ r hr

theorem videoStep_keys (cs : List Node) :
    ∀ r ∈ (videoStep cs).2, r.1 = "video_model" ∨ r.1 = "video_accel" := by
  unfold videoStep
  cases h : findC "model" cs with
  | none => simp
  | some m =>
    by_cases hl : videoLegacy (getD m.attrsOf "type" "unknown")
    · simp only [hl, if_true]
      intro r hr
      rcases List.mem_cons.mp hr with h1 | h1
      · left; rw [h1]
      · right
        split at h1
        · cases h1
        · simp at h1
          rw [h1]
    · simp [hl]

theorem video_keys :
    (∀ n, ∀ r ∈ (videoN n).2, r.1 = "video_model" ∨ r.1 = "video_accel") ∧
    (∀ cs, ∀ r ∈ (videoL cs).2, r.1 = "video_model" ∨ r.1 = "video_accel") := by
  refine nodeInd _ _ ?he ?ht ?hn ?hc
  case ht => intro s r hr; simp [videoN] at hr
  case hn => intro r hr; simp [videoL] at hr
  case hc =>
    intro c cs hP hQ r hr
    simp only [videoL, List.mem_append] at hr
    rcases hr with h | h
    · exact hP r h
    · exact hQ r h
  case he =>
    intro t a cs hQ r hr
    simp only [videoN] at hr
    split at hr
    · rcases List.mem_append.mp hr with h | h
      · exact videoStep_keys _ r h
      · exact hQ r h
    · exact hQ r hr

theorem spiceStep_keys (cs : List Node) : ∀ r ∈ (spiceStep cs).2, r.1 = "spice_gl" := by
  unfold spiceStep
  by_cases h : (getD (match findC "gl" (if (findC "gl" cs).isSome then cs
      else cs ++ [.elem "gl" [] []]) with
    | some g => g.attrsOf
    | none => []) "enable" "no") == "yes"
  · simp [h]
  · simp [h]

theorem spice_keys :
    (∀ n, ∀ r ∈ (spiceN n).2, r.1 = "spice_gl") ∧
    (∀ cs, ∀ r ∈ (spiceL cs).2, r.1 = "spice_gl") := by
  refine nodeInd _ _ ?he ?ht ?hn ?hc
  case ht => intro s r hr; simp [spiceN] at hr
  case hn => intro r hr; simp [spiceL] at hr
  case hc =>
    intro c cs hP hQ r hr
    simp only [spiceL, List.mem_append] at hr
    rcases hr with h | h
    · exact hP r h
    · exact hQ r h
  case he =>
    intro t a cs hQ r hr
    simp only [spiceN] at hr
    split at hr
    · rcases List.mem_append.mp hr with h | h
      · exact spiceStep_keys _ r h
      · exact hQ r h
    · exact hQ r hr



theorem diskTargetInfo_keys (st : Option String) (cs : List Node) (ch : List Change)
    (st2 : Option String) (h : diskTargetInfo st cs = .ok (ch, st2)) :
    ∀ r ∈ ch, r.1 = "disk_bus" := by
  unfold diskTargetInfo at h
  cases hf : findC "target" cs with
  | none => rw [hf] at h; cases h; simp
  | some tn =>
    rw [hf] at h
    simp only at h
    by_cases hb : busLegacy (getD tn.attrsOf "bus" "unknown")
    · rw [if_pos hb] at h
      cases hst : (if getD tn.attrsOf "dev" "" == "" then st
          else some (devSub (getD tn.attrsOf "dev" ""))) with
      | none => rw [hst] at h; cases h
      | some nd =>
        rw [hst] at h
        simp only [Except.ok.injEq, Prod.mk.injEq] at h
        obtain ⟨h1, h2⟩ := h
        subst h1
        simp
    · rw [if_neg hb] at h; cases h; simp

theorem diskDriverInfo_keys (cs : List Node) : ∀ r ∈ diskDriverInfo cs, r.1 = "disk_cache" := by
  intro r hr
  unfold diskDriverInfo at hr
  split at hr
  · cases hr
  · dsimp only at hr
    split at hr
    · cases hr
    · simp at hr
      rw [hr]

theorem disk_keys :
    (∀ n, ∀ st n2 ch st2, diskN st n = .ok (n2, ch, st2) →
       ∀ r ∈ ch, r.1 = "disk_bus" ∨ r.1 = "disk_cache") ∧
    (∀ cs, ∀ st cs2 ch st2, diskL st cs = .ok (cs2, ch, st2) →
       ∀ r ∈ ch, r.1 = "disk_bus" ∨ r.1 = "disk_cache") := by
  refine nodeInd _ _ ?he ?ht ?hn ?hc
  case ht =>
    intro s st n2 ch st2 h r hr
    simp only [diskN, Except.ok.injEq, Prod.mk.injEq] at h
    obtain ⟨h1, h2, h3⟩ := h
    subst h2
    cases hr
  case hn =>
    intro st cs2 ch st2 h r hr
    simp only [diskL, Except.ok.injEq, Prod.mk.injEq] at h
    obtain ⟨h1, h2, h3⟩ := h
    subst h2
    cases hr
  case hc =>
    intro c cs hP hQ st cs2 ch st2 h r hr
    simp only [diskL] at h
    cases h1 : diskN st c with
    | error e => rw [h1] at h; cases h
    | ok res1 =>
      obtain ⟨n1, ch1, st1⟩ := res1
      rw [h1] at h
      simp only at h
      cases h2 : diskL st1 cs with
      | error e => rw [h2] at h; cases h
      | ok res2 =>
        obtain ⟨cs3, ch3, st3⟩ := res2
        rw [h2] at h
        simp only [Except.ok.injEq, Prod.mk.injEq] at h
        obtain ⟨ha, hb2, hc2⟩ := h
        subst hb2
        rcases List.mem_append.mp hr with hm | hm
        · exact hP st n1 ch1 st1 h1 r hm
        · exact hQ st1 cs3 ch3 st3 h2 r hm
  case he =>
    intro t a cs hQ st n2 ch st2 h r hr
    simp only [diskN] at h
    by_cases hdd : isDiskDisk t a
    · rw [if_pos hdd] at h
      cases h1 : diskTargetInfo st cs with
      | error e => rw [h1] at h; cases h
      | ok res1 =>
        obtain ⟨chA, stA⟩ := res1
        rw [h1] at h
        simp only at h
        cases h2 : diskL stA cs with
        | error e => rw [h2] at h; cases h
        | ok res2 =>
          obtain ⟨cs3, ch3, st3⟩ := res2
          rw [h2] at h
          simp only [Except.ok.injEq, Prod.mk.injEq] at h
          obtain ⟨ha, hb2, hc2⟩ := h
          subst hb2
          rcases List.mem_append.mp hr with hm | hm
          · rcases List.mem_append.mp hm with hm2 | hm2
            · exact Or.inl (diskTargetInfo_keys st cs chA stA h1 r hm2)
            · exact Or.inr (diskDriverInfo_keys cs r hm2)
          · exact hQ stA cs3 ch3 st3 h2 r hm
    · rw [if_neg hdd] at h
      cases h2 : diskL st cs with
      | error e => rw [h2] at h; cases h
      | ok res2 =>
        obtain ⟨cs3, ch3, st3⟩ := res2
        rw [h2] at h
        simp only [Except.ok.injEq, Prod.mk.injEq] at h
        obtain ⟨ha, hb2, hc2⟩ := h
        subst hb2
        exact hQ st cs3 ch3 st3 h2 r hr

theorem cpuStep_keys (cs cs2 : List Node) (ch : List Change) (h : cpuStep cs = .ok (cs2, ch)) :
    ∀ r ∈ ch, r.1 = "cpu_mode" ∨ r.1 = "cpu_topology" := by
  unfold cpuStep at h
  cases hc : findC "cpu" cs with
  | some c =>
    rw [hc] at h
    dsimp only at h
    cases hv : findC "vcpu" cs with
    | some v =>
      rw [hv] at h
      dsimp only at h
      cases hp : pyIntOpt (pyOrOne v.textOf) with
      | none => rw [hp] at h; cases h
      | some n =>
        rw [hp] at h
        dsimp only at h
        by_cases htp : (findC "topology" c.childrenOf).isNone
        · rw [if_pos htp] at h
          simp only [Except.ok.injEq, Prod.mk.injEq] at h
          obtain ⟨h1, h2⟩ := h
          subst h2
          intro r hr
          rcases List.mem_append.mp hr with hm | hm
          · split at hm
            · simp at hm
              exact Or.inl (by rw [hm])
            · cases hm
          · simp [topoChange] at hm
            exact Or.inr (by rw [hm])
        · rw [if_neg htp] at h
          simp only [Except.ok.injEq, Prod.mk.injEq] at h
          obtain ⟨h1, h2⟩ := h
          subst h2
          intro r hr
          split at hr
          · simp at hr
            exact Or.inl (by rw [hr])
          · cases hr
    | none =>
      rw [hv] at h
      dsimp only at h
      simp only [Except.ok.injEq, Prod.mk.injEq] at h
      obtain ⟨h1, h2⟩ := h
      subst h2
      intro r hr
      split at hr
      · simp at hr
        exact Or.inl (by rw [hr])
      · cases hr
  | none =>
    rw [hc] at h
    dsimp only at h
    cases hv : findC "vcpu" cs with
    | some v =>
      rw [hv] at h
      dsimp only at h
      cases htx : v.textOf with
      | none => rw [htx] at h; cases h
      | some s =>
        rw [htx] at h
        dsimp only at h
        cases hp : pyIntOpt s with
        | none => rw [hp] at h; cases h
        | some n =>
          rw [hp] at h
          simp only [Except.ok.injEq, Prod.mk.injEq] at h
          obtain ⟨h1, h2⟩ := h
          subst h2
          intro r hr
          rcases List.mem_cons.mp hr with h3 | h3
          · exact Or.inl (by rw [h3])
          · simp [topoChange] at h3
            exact Or.inr (by rw [h3])
    | none =>
      rw [hv] at h
      simp only [Except.ok.injEq, Prod.mk.injEq] at h
      obtain ⟨h1, h2⟩ := h
      subst h2
      intro r hr
      rcases List.mem_cons.mp hr with h3 | h3
      · exact Or.inl (by rw [h3])
      · simp [topoChange] at h3
        exact Or.inr (by rw [h3])



theorem getA_nil (k : String) : getA [] k = none := rfl

theorem getA_cons (q : String × String) (l : Attrs) (k : String) :
    getA (q :: l) k = if q.1 == k then some q.2 else getA l k := by
  by_cases h : q.1 == k <;> simp [getA, List.find?, h]

theorem keysSubB_refl (a : Attrs) : keysSubB a a = true := by
  rw [keysSubB, List.all_eq_true]
  intro p hp
  have hf : (List.find? (fun q => q.1 == p.1) a).isSome :=
    List.find?_isSome.mpr ⟨p, hp, by simp⟩
  obtain ⟨q, hq⟩ := Option.isSome_iff_exists.mp hf
  simp [getA, hq]

theorem getA_setA_same (a : Attrs) (k v : String) : getA (setA a k v) k = some v := by
  induction a with
  | nil => simp [setA, getA_cons]
  | cons p rest ih =>
    by_cases h : p.1 = k
    · simp [setA, h, getA_cons]
    · simp [setA, h, getA_cons, ih]

theorem getA_setA_other (a : Attrs) (k v k2 : String) (h : k2 ≠ k) :
    getA (setA a k v) k2 = getA a k2 := by
  have hk : k ≠ k2 := Ne.symm h
  induction a with
  | nil => simp [setA, getA_cons, getA_nil, hk]
  | cons p rest ih =>
    by_cases hp : p.1 = k
    · simp [setA, hp, getA_cons, hk]
    · simp [setA, hp, getA_cons, ih]

theorem keysSubB_setA (a b : Attrs) (k v : String) (h : keysSubB a b = true) :
    keysSubB a (setA b k v) = true := by
  rw [keysSubB, List.all_eq_true] at h ⊢
  intro p hp
  by_cases hk : p.1 = k
  · subst hk
    simp [getA_setA_same]
  · rw [getA_setA_other b k v p.1 hk]
    exact h p hp



theorem embL_nil (ys : List Node) : embL [] ys = true := by
  cases ys <;> rfl

theorem embL_skip (xs : List Node) (y : Node) (ys : List Node)
    (h : embL xs ys = true) : embL xs (y :: ys) = true := by
  cases xs with
  | nil => rfl
  | cons x xs2 =>
    rw [embL]
    simp only [Bool.or_eq_true]
    right
    exact h

theorem embL_cons (x y : Node) (xs ys : List Node)
    (h1 : embN x y = true) (h2 : embL xs ys = true) : embL (x :: xs) (y :: ys) = true := by
  rw [embL]
  simp only [Bool.or_eq_true, Bool.and_eq_true]
  left
  exact ⟨h1, h2⟩

theorem emb_refl :
    (∀ n, embN n n = true) ∧ (∀ cs, embL cs cs = true) := by
  refine nodeInd _ _ ?he ?ht ?hn ?hc
  case ht => intro s; simp [embN]
  case hn => rfl
  case hc =>
    intro c cs hP hQ
    exact embL_cons c c cs cs hP hQ
  case he =>
    intro t a cs hQ
    rw [embN]
    simp [keysSubB_refl, hQ]

theorem embL_append_right (zs : List Node) :
    ∀ ys xs, embL xs ys = true → embL xs (ys ++ zs) = true := by
  intro ys
  induction ys with
  | nil =>
    intro xs h
    cases xs with
    | nil => cases zs <;> rfl
    | cons x xs2 => rw [embL] at h; cases h
  | cons y ys2 ih =>
    intro xs h
    cases xs with
    | nil => cases zs <;> simp [embL]  -- embL [] anything = true
    | cons x xs2 =>
      rw [embL] at h
      simp only [Bool.or_eq_true, Bool.and_eq_true] at h
      rcases h with ⟨h1, h2⟩ | h
      · exact embL_cons x y xs2 (ys2 ++ zs) h1 (ih xs2 h2)
      · exact embL_skip (x :: xs2) y (ys2 ++ zs) (ih (x :: xs2) h)

theorem embL_append₂ :
    ∀ b1 a1 a2 b2, embL a1 b1 = true → embL a2 b2 = true →
      embL (a1 ++ a2) (b1 ++ b2) = true := by
  intro b1
  induction b1 with
  | nil =>
    intro a1 a2 b2 h1 h2
    cases a1 with
    | nil => exact h2
    | cons x xs => rw [embL] at h1; cases h1
  | cons y ys ih =>
    intro a1 a2 b2 h1 h2
    cases a1 with
    | nil =>
      have : embL a2 (ys ++ b2) = true := ih [] a2 b2 (embL_nil ys) h2
      exact embL_skip a2 y (ys ++ b2) this
    | cons x xs =>
      rw [embL] at h1
      simp only [Bool.or_eq_true, Bool.and_eq_true] at h1
      rcases h1 with ⟨hx, hxs⟩ | h1
      · exact embL_cons x y (xs ++ a2) (ys ++ b2) hx (ih xs a2 b2 hxs h2)
      · exact embL_skip (x :: xs ++ a2) y (ys ++ b2) (ih (x :: xs) a2 b2 h1 h2)

theorem embL_insAfter (p : Node → Bool) (x : Node) :
    ∀ cs, embL cs (insAfter p x cs) = true := by
  intro cs
  induction cs with
  | nil => rfl
  | cons y ys ih =>
    rw [insAfter]
    by_cases h : p y
    · rw [if_pos h]
      exact embL_cons y y ys (x :: ys) (emb_refl.1 y) (embL_skip ys x ys (emb_refl.2 ys))
    · rw [if_neg h]
      exact embL_cons y y ys (insAfter p x ys) (emb_refl.1 y) ih

theorem embL_updFirst (p : Node → Bool) (f : Node → Node)
    (hf : ∀ x, embN x (f x) = true) :
    ∀ cs, embL cs (updFirst p f cs) = true := by
  intro cs
  induction cs with
  | nil => rfl
  | cons y ys ih =>
    rw [updFirst]
    by_cases h : p y
    · rw [if_pos h]
      exact embL_cons y (f y) ys ys (hf y) (emb_refl.2 ys)
    · rw [if_neg h]
      exact embL_cons y y ys (updFirst p f ys) (emb_refl.1 y) ih

theorem keysSubB_trans (a b c : Attrs) (h1 : keysSubB a b = true)
    (h2 : keysSubB b c = true) : keysSubB a c = true := by
  rw [keysSubB, List.all_eq_true] at h1 h2 ⊢
  intro p hp
  have hb := h1 p hp
  rw [getA] at hb
  cases hf : List.find? (fun q => q.1 == p.1) b with
  | none => rw [hf] at hb; cases hb
  | some r =>
    have hmem := List.mem_of_find?_eq_some hf
    have hr1 := List.find?_some hf
    simp only [beq_iff_eq] at hr1
    have hrc := h2 r hmem
    rw [hr1] at hrc
    exact hrc

theorem emb_trans :
    (∀ c a b, embN a b = true → embN b c = true → embN a c = true) ∧
    (∀ r l m, embL l m = true → embL m r = true → embL l r = true) := by
  refine nodeInd _ _ ?he ?ht ?hn ?hc
  case ht =>
    intro s a b h1 h2
    cases b with
    | text s2 =>
      cases a with
      | text s0 =>
        simp only [embN, beq_iff_eq] at h1 h2 ⊢
        rw [h1, h2]
      | elem t0 a0 c0 => simp [embN] at h1
    | elem t2 a2 c2 => simp [embN] at h2
  case hn =>
    intro l m h1 h2
    cases m with
    | nil =>
      cases l with
      | nil => rfl
      | cons x xs => simp [embL] at h1
    | cons y ys => simp [embL] at h2
  case hc =>
    intro z zs hP hQ l m h1 h2
    cases m with
    | nil =>
      cases l with
      | nil => exact embL_nil _
      | cons x xs => simp [embL] at h1
    | cons y ys =>
      rw [embL] at h2
      simp only [Bool.or_eq_true, Bool.and_eq_true] at h2
      rcases h2 with ⟨hyz, hyszs⟩ | h2
      · cases l with
        | nil => exact embL_nil _
        | cons x xs =>
          rw [embL] at h1
          simp only [Bool.or_eq_true, Bool.and_eq_true] at h1
          rcases h1 with ⟨hxy, hxsys⟩ | h1
          · exact embL_cons x z xs zs (hP x y hxy hyz) (hQ xs ys hxsys hyszs)
          · exact embL_skip (x :: xs) z zs (hQ (x :: xs) ys h1 hyszs)
      · have : embL l zs = true := hQ l (y :: ys) h1 h2
        exact embL_skip l z zs this
  case he =>
    intro t2 a2 cs2 hQ a b h1 h2
    cases b with
    | text s => simp [embN] at h2
    | elem tb ab csb =>
      cases a with
      | text s => simp [embN] at h1
      | elem ta aa csa =>
        simp only [embN] at h1 h2 ⊢
        simp only [Bool.and_eq_true, beq_iff_eq] at h1 h2 ⊢
        obtain ⟨⟨ht1, hk1⟩, hl1⟩ := h1
        obtain ⟨⟨ht2, hk2⟩, hl2⟩ := h2
        exact ⟨⟨ht1.trans ht2, keysSubB_trans aa ab a2 hk1 hk2⟩, hQ csa csb hl1 hl2⟩



theorem embN_elem (t : String) (a a2 : Attrs) (cs cs2 : List Node)
    (hk : keysSubB a a2 = true) (hl : embL cs cs2 = true) :
    embN (.elem t a cs) (.elem t a2 cs2) = true := by
  simp [embN, hk, hl]

theorem emb_setAttrOn (k v : String) (x : Node) : embN x (setAttrOn k v x) = true := by
  cases x with
  | text s => exact emb_refl.1 _
  | elem t a cs =>
    exact embN_elem t a _ cs cs (keysSubB_setA a a k v (keysSubB_refl a)) (emb_refl.2 cs)

theorem emb_diskTargetMut (cs : List Node) : embL cs (diskTargetMut cs) = true := by
  unfold diskTargetMut
  cases hf : findC "target" cs with
  | none => exact emb_refl.2 cs
  | some tn =>
    dsimp only
    split
    · apply embL_updFirst
      intro x
      cases x with
      | text s => exact emb_refl.1 _
      | elem tg ax gcs =>
        dsimp only
        split
        · exact embN_elem tg ax _ gcs gcs
            (keysSubB_setA _ _ _ _ (keysSubB_refl ax)) (emb_refl.2 gcs)
        · exact embN_elem tg ax _ gcs gcs
            (keysSubB_setA _ _ _ _ (keysSubB_setA _ _ _ _ (keysSubB_refl ax))) (emb_refl.2 gcs)
    · exact emb_refl.2 cs

theorem emb_diskDriverMut (cs : List Node) : embL cs (diskDriverMut cs) = true := by
  unfold diskDriverMut
  cases hf : findC "driver" cs with
  | none => exact emb_refl.2 cs
  | some d =>
    dsimp only
    split
    · exact emb_refl.2 cs
    · apply embL_updFirst
      intro x
      cases x with
      | text s => exact emb_refl.1 _
      | elem tg ax gcs =>
        exact embN_elem tg ax _ gcs gcs
          (keysSubB_setA _ _ _ _ (keysSubB_setA _ _ _ _ (keysSubB_setA _ _ _ _ (keysSubB_refl ax))))
          (emb_refl.2 gcs)

theorem emb_disk :
    (∀ n, ∀ st n2 ch st2, diskN st n = .ok (n2, ch, st2) → embN n n2 = true) ∧
    (∀ cs, ∀ st cs2 ch st2, diskL st cs = .ok (cs2, ch, st2) → embL cs cs2 = true) := by
  refine nodeInd _ _ ?he ?ht ?hn ?hc
  case ht =>
    intro s st n2 ch st2 h
    simp only [diskN, Except.ok.injEq, Prod.mk.injEq] at h
    obtain ⟨h1, h2, h3⟩ := h
    rw [← h1]
    exact emb_refl.1 _
  case hn =>
    intro st cs2 ch st2 h
    simp only [diskL, Except.ok.injEq, Prod.mk.injEq] at h
    obtain ⟨h1, h2, h3⟩ := h
    rw [← h1]
    rfl
  case hc =>
    intro c cs hP hQ st cs2 ch st2 h
    simp only [diskL] at h
    cases h1 : diskN st c with
    | error e => rw [h1] at h; cases h
    | ok res1 =>
      obtain ⟨n1, ch1, st1⟩ := res1
      rw [h1] at h
      simp only at h
      cases h2 : diskL st1 cs with
      | error e => rw [h2] at h; cases h
      | ok res2 =>
        obtain ⟨cs3, ch3, st3⟩ := res2
        rw [h2] at h
        simp only [Except.ok.injEq, Prod.mk.injEq] at h
        obtain ⟨ha, hb2, hc2⟩ := h
        rw [← ha]
        exact embL_cons c n1 cs cs3 (hP st n1 ch1 st1 h1) (hQ st1 cs3 ch3 st3 h2)
  case he =>
    intro t a cs hQ st n2 ch st2 h
    simp only [diskN] at h
    by_cases hdd : isDiskDisk t a
    · rw [if_pos hdd] at h
      cases h1 : diskTargetInfo st cs with
      | error e => rw [h1] at h; cases h
      | ok res1 =>
        obtain ⟨chA, stA⟩ := res1
        rw [h1] at h
        simp only at h
        cases h2 : diskL stA cs with
        | error e => rw [h2] at h; cases h
        | ok res2 =>
          obtain ⟨cs3, ch3, st3⟩ := res2
          rw [h2] at h
          simp only [Except.ok.injEq, Prod.mk.injEq] at h
          obtain ⟨ha, hb2, hc2⟩ := h
          rw [← ha]
          have e1 : embL cs cs3 := hQ stA cs3 ch3 st3 h2
          have e2 : embL cs (diskTargetMut cs3) :=
            emb_trans.2 (diskTargetMut cs3) cs cs3 e1 (emb_diskTargetMut cs3)
          have e3 : embL cs (diskDriverMut (diskTargetMut cs3)) :=
            emb_trans.2 (diskDriverMut (diskTargetMut cs3)) cs (diskTargetMut cs3) e2
              (emb_diskDriverMut (diskTargetMut cs3))
          exact embN_elem t a a cs _ (keysSubB_refl a) e3
    · rw [if_neg hdd] at h
      cases h2 : diskL st cs with
      | error e => rw [h2] at h; cases h
      | ok res2 =>
        obtain ⟨cs3, ch3, st3⟩ := res2
        rw [h2] at h
        simp only [Except.ok.injEq, Prod.mk.injEq] at h
        obtain ⟨ha, hb2, hc2⟩ := h
        rw [← ha]
        exact embN_elem t a a cs cs3 (keysSubB_refl a) (hQ st cs3 ch3 st3 h2)

theorem emb_nicStep (cs : List Node) : embL cs (nicStep cs).1 = true := by
  unfold nicStep
  cases hf : findC "model" cs with
  | none => exact emb_refl.2 cs
  | some m =>
    dsimp only
    split
    · exact embL_updFirst _ _ (fun x => emb_setAttrOn _ _ x) cs
    · exact emb_refl.2 cs

theorem emb_nic : (∀ n, embN n (nicN n).1 = true) ∧ (∀ cs, embL cs (nicL cs).1 = true) := by
  refine nodeInd _ _ ?he ?ht ?hn ?hc
  case ht => intro s; exact emb_refl.1 _
  case hn => rfl
  case hc =>
    intro c cs hP hQ
    simp only [nicL]
    exact embL_cons c (nicN c).1 cs (nicL cs).1 hP hQ
  case he =>
    intro t a cs hQ
    simp only [nicN]
    split
    · apply embN_elem t a a cs _ (keysSubB_refl a)
      exact emb_trans.2 _ cs (nicL cs).1 hQ (emb_nicStep (nicL cs).1)
    · exact embN_elem t a a cs _ (keysSubB_refl a) hQ

theorem emb_videoModelUpd (x : Node) : embN x (videoModelUpd x) = true := by
  cases x with
  | text s => exact emb_refl.1 _
  | elem t a cs =>
    unfold videoModelUpd
    cases hf : findC "acceleration" cs with
    | some acc =>
      dsimp only
      rw [hf]
      apply embN_elem t a _ cs _
        (keysSubB_setA _ _ _ _ (keysSubB_setA _ _ _ _ (keysSubB_setA _ _ _ _ (keysSubB_refl a))))
      exact embL_updFirst _ _ (fun x => emb_setAttrOn _ _ x) cs
    | none =>
      dsimp only
      rw [hf]
      apply embN_elem t a _ cs _
        (keysSubB_setA _ _ _ _ (keysSubB_setA _ _ _ _ (keysSubB_setA _ _ _ _ (keysSubB_refl a))))
      exact embL_append_right _ cs cs (emb_refl.2 cs)

theorem emb_videoStep (cs : List Node) : embL cs (videoStep cs).1 = true := by
  unfold videoStep
  cases hf : findC "model" cs with
  | none => exact emb_refl.2 cs
  | some m =>
    dsimp only
    split
    · exact embL_updFirst _ _ emb_videoModelUpd cs
    · exact emb_refl.2 cs

theorem emb_video : (∀ n, embN n (videoN n).1 = true) ∧ (∀ cs, embL cs (videoL cs).1 = true) := by
  refine nodeInd _ _ ?he ?ht ?hn ?hc
  case ht => intro s; exact emb_refl.1 _
  case hn => rfl
  case hc =>
    intro c cs hP hQ
    simp only [videoL]
    exact embL_cons c (videoN c).1 cs (videoL cs).1 hP hQ
  case he =>
    intro t a cs hQ
    simp only [videoN]
    split
    · apply embN_elem t a a cs _ (keysSubB_refl a)
      exact emb_trans.2 _ cs (videoL cs).1 hQ (emb_videoStep (videoL cs).1)
    · exact embN_elem t a a cs _ (keysSubB_refl a) hQ

theorem emb_glUpd (x : Node) : embN x (glUpd x) = true := by
  cases x with
  | text s => exact emb_refl.1 _
  | elem t a cs =>
    unfold glUpd
    dsimp only
    split
    · exact embN_elem t a _ cs cs (keysSubB_setA _ _ _ _ (keysSubB_refl a)) (emb_refl.2 cs)
    · exact embN_elem t a _ cs cs
        (keysSubB_setA _ _ _ _ (keysSubB_setA _ _ _ _ (keysSubB_refl a))) (emb_refl.2 cs)

theorem emb_spiceStep (cs : List Node) : embL cs (spiceStep cs).1 = true := by
  unfold spiceStep
  dsimp only
  split
  · split
    · exact emb_refl.2 cs
    · exact emb_trans.2 _ cs cs (emb_refl.2 cs) (embL_updFirst _ _ emb_glUpd cs)
  · have h0 : embL cs (cs ++ [Node.elem "gl" [] []]) = true :=
      embL_append_right _ cs cs (emb_refl.2 cs)
    split
    · exact h0
    · exact emb_trans.2 _ cs _ h0 (embL_updFirst _ _ emb_glUpd _)

theorem emb_spice : (∀ n, embN n (spiceN n).1 = true) ∧ (∀ cs, embL cs (spiceL cs).1 = true) := by
  refine nodeInd _ _ ?he ?ht ?hn ?hc
  case ht => intro s; exact emb_refl.1 _
  case hn => rfl
  case hc =>
    intro c cs hP hQ
    simp only [spiceL]
    exact embL_cons c (spiceN c).1 cs (spiceL cs).1 hP hQ
  case he =>
    intro t a cs hQ
    simp only [spiceN]
    split
    · apply embN_elem t a a cs _ (keysSubB_refl a)
      exact emb_trans.2 _ cs (spiceL cs).1 hQ (emb_spiceStep (spiceL cs).1)
    · exact embN_elem t a a cs _ (keysSubB_refl a) hQ

theorem emb_appendChildOn (x c : Node) : embN c (appendChildOn x c) = true := by
  cases c with
  | text s => exact emb_refl.1 _
  | elem t a cs =>
    exact embN_elem t a a cs _ (keysSubB_refl a) (embL_append_right _ cs cs (emb_refl.2 cs))

theorem emb_cpuStep (cs cs2 : List Node) (ch : List Change) (h : cpuStep cs = .ok (cs2, ch)) :
    embL cs cs2 = true := by
  unfold cpuStep at h
  cases hc : findC "cpu" cs with
  | some c =>
    rw [hc] at h
    dsimp only at h
    have hcs1 : embL cs (if (!getD c.attrsOf "mode" "custom" == "host-passthrough") = true then
        updFirst (isTag "cpu")
          (fun cn => setAttrOn "migratable" "on"
            (setAttrOn "check" "none" (setAttrOn "mode" "host-passthrough" cn))) cs
      else cs) = true := by
      split
      · apply embL_updFirst
        intro x
        refine emb_trans.1 _ x (setAttrOn "check" "none" (setAttrOn "mode" "host-passthrough" x)) ?_ ?_
        · refine emb_trans.1 _ x (setAttrOn "mode" "host-passthrough" x) ?_ ?_
          · exact emb_setAttrOn _ _ x
          · exact emb_setAttrOn _ _ _
        · exact emb_setAttrOn _ _ _
      · exact emb_refl.2 cs
    cases hv : findC "vcpu" cs with
    | some v =>
      rw [hv] at h
      dsimp only at h
      cases hp : pyIntOpt (pyOrOne v.textOf) with
      | none => rw [hp] at h; cases h
      | some n =>
        rw [hp] at h
        dsimp only at h
        by_cases htp : (findC "topology" c.childrenOf).isNone
        · rw [if_pos htp] at h
          simp only [Except.ok.injEq, Prod.mk.injEq] at h
          obtain ⟨h1, h2⟩ := h
          rw [← h1]
          refine emb_trans.2 _ cs _ hcs1 ?_
          exact embL_updFirst _ _ (fun x => emb_appendChildOn _ x) _
        · rw [if_neg htp] at h
          simp only [Except.ok.injEq, Prod.mk.injEq] at h
          obtain ⟨h1, h2⟩ := h
          rw [← h1]
          exact hcs1
    | none =>
      rw [hv] at h
      dsimp only at h
      simp only [Except.ok.injEq, Prod.mk.injEq] at h
      obtain ⟨h1, h2⟩ := h
      rw [← h1]
      exact hcs1
  | none =>
    rw [hc] at h
    dsimp only at h
    cases hv : findC "vcpu" cs with
    | some v =>
      rw [hv] at h
      dsimp only at h
      cases htx : v.textOf with
      | none => rw [htx] at h; cases h
      | some s =>
        rw [htx] at h
        dsimp only at h
        cases hp : pyIntOpt s with
        | none => rw [hp] at h; cases h
        | some n =>
          rw [hp] at h
          simp only [Except.ok.injEq, Prod.mk.injEq] at h
          obtain ⟨h1, h2⟩ := h
          rw [← h1]
          exact embL_insAfter _ _ cs
    | none =>
      rw [hv] at h
      simp only [Except.ok.injEq, Prod.mk.injEq] at h
      obtain ⟨h1, h2⟩ := h
      rw [← h1]
      exact embL_append_right _ cs cs (emb_refl.2 cs)

theorem okl_updFirst (PN : Node → Bool) (PL : List Node → Bool)
    (hcons : ∀ c cs, PL (c :: cs) = (PN c && PL cs))
    (p : Node → Bool) (f : Node → Node)
    (hf : ∀ x, p x = true → PN x = true → PN (f x) = true) :
    ∀ l, PL l = true → PL (updFirst p f l) = true := by
  intro l
  induction l with
  | nil => intro h; exact h
  | cons c cs ih =>
    intro h
    rw [hcons] at h
    simp only [Bool.and_eq_true] at h
    rw [updFirst]
    by_cases hp : p c
    · rw [if_pos hp, hcons]
      simp only [Bool.and_eq_true]
      exact ⟨hf c hp h.1, h.2⟩
    · rw [if_neg hp, hcons]
      simp only [Bool.and_eq_true]
      exact ⟨h.1, ih h.2⟩

theorem okl_insAfter (PN : Node → Bool) (PL : List Node → Bool)
    (hcons : ∀ c cs, PL (c :: cs) = (PN c && PL cs))
    (p : Node → Bool) (x : Node) (hx : PN x = true) :
    ∀ l, PL l = true → PL (insAfter p x l) = true := by
  intro l
  induction l with
  | nil =>
    intro h
    rw [insAfter, hcons]
    simp only [Bool.and_eq_true]
    exact ⟨hx, h⟩
  | cons c cs ih =>
    intro h
    rw [hcons] at h
    simp only [Bool.and_eq_true] at h
    rw [insAfter]
    by_cases hp : p c
    · rw [if_pos hp, hcons, hcons]
      simp only [Bool.and_eq_true]
      exact ⟨h.1, hx, h.2⟩
    · rw [if_neg hp, hcons]
      simp only [Bool.and_eq_true]
      exact ⟨h.1, ih h.2⟩

theorem okl_append (PN : Node → Bool) (PL : List Node → Bool)
    (hnil : PL [] = true)
    (hcons : ∀ c cs, PL (c :: cs) = (PN c && PL cs))
    (x : Node) (hx : PN x = true) :
    ∀ l, PL l = true → PL (l ++ [x]) = true := by
  intro l
  induction l with
  | nil =>
    intro _
    rw [List.nil_append, hcons]
    simp only [Bool.and_eq_true]
    exact ⟨hx, hnil⟩
  | cons c cs ih =>
    intro h
    rw [hcons] at h
    simp only [Bool.and_eq_true] at h
    rw [List.cons_append, hcons]
    simp only [Bool.and_eq_true]
    exact ⟨h.1, ih h.2⟩

theorem topSame_refl (x : Node) : topSame x x := ⟨fun _ => rfl, rfl⟩
theorem findC_cons (t : String) (c : Node) (cs : List Node) :
    findC t (c :: cs) = if isTag t c then some c else findC t cs := by
  cases h : isTag t c <;> simp [findC, List.find?, h]

theorem findC_topPres (t : String) :
    ∀ l1 l2, TopPres l1 l2 →
      (findC t l1 = none ∧ findC t l2 = none) ∨
      (∃ x y, findC t l1 = some x ∧ findC t l2 = some y ∧ topSame x y) := by
  intro l1 l2 h
  induction h with
  | nil => left; exact ⟨rfl, rfl⟩
  | cons hxy hrest ih =>
    rename_i x y l1' l2'
    have hy := hxy.1 t
    by_cases hx : isTag t x
    · right
      refine ⟨x, y, ?_, ?_, hxy⟩
      · rw [findC_cons, if_pos hx]
      · rw [findC_cons, if_pos (by rw [← hy]; exact hx)]
    · have hy' : isTag t y = false := by rw [← hy]; simpa using hx
      rcases ih with ⟨h1, h2⟩ | ⟨a, b, h1, h2, h3⟩
      · left
        rw [findC_cons, if_neg hx, findC_cons, if_neg (by simp [hy'])]
        exact ⟨h1, h2⟩
      · right
        refine ⟨a, b, ?_, ?_, h3⟩
        · rw [findC_cons, if_neg hx]; exact h1
        · rw [findC_cons, if_neg (by simp [hy'])]; exact h2

theorem isTag_unique (t1 t2 : String) (x : Node)
    (h1 : isTag t1 x = true) (h2 : isTag t2 x = true) : t1 = t2 := by
  cases x with
  | text s => simp [isTag] at h1
  | elem tg a cs =>
    simp only [isTag, beq_iff_eq] at h1 h2
    rw [← h1, ← h2]

theorem findC_updFirst_of_ne (t : String) (p : Node → Bool) (f : Node → Node)
    (hp : ∀ x, p x = true → isTag t x = false)
    (hf : ∀ x, p x = true → isTag t (f x) = false) :
    ∀ l, findC t (updFirst p f l) = findC t l := by
  intro l
  induction l with
  | nil => rfl
  | cons c cs ih =>
    rw [updFirst]
    by_cases hpc : p c
    · rw [if_pos hpc, findC_cons, if_neg (by simp [hf c hpc]),
        findC_cons, if_neg (by simp [hp c hpc])]
    · rw [if_neg hpc, findC_cons, findC_cons]
      by_cases htc : isTag t c
      · rw [if_pos htc, if_pos htc]
      · rw [if_neg htc, if_neg htc, ih]

theorem findC_insAfter_of_ne (t : String) (p : Node → Bool) (x : Node)
    (hx : isTag t x = false) :
    ∀ l, findC t (insAfter p x l) = findC t l := by
  intro l
  induction l with
  | nil => simp [insAfter, findC_cons, hx, findC]
  | cons c cs ih =>
    rw [insAfter]
    by_cases hpc : p c
    · rw [if_pos hpc, findC_cons, findC_cons, findC_cons,
        if_neg (show ¬isTag t x = true by simp [hx])]
    · rw [if_neg hpc, findC_cons, findC_cons]
      by_cases htc : isTag t c
      · rw [if_pos htc, if_pos htc]
      · rw [if_neg htc, if_neg htc, ih]

theorem findC_append_ne (t : String) (x : Node) (hx : isTag t x = false) :
    ∀ l, findC t (l ++ [x]) = findC t l := by
  intro l
  induction l with
  | nil => simp [findC_cons, hx, findC]
  | cons c cs ih =>
    rw [List.cons_append, findC_cons, findC_cons]
    by_cases htc : isTag t c
    · rw [if_pos htc, if_pos htc]
    · rw [if_neg htc, if_neg htc, ih]

theorem findC_updFirst_self (t : String) (f : Node → Node)
    (hf : ∀ x, isTag t (f x) = isTag t x) :
    ∀ l, findC t (updFirst (isTag t) f l) = (findC t l).map f := by
  intro l
  induction l with
  | nil => rfl
  | cons c cs ih =>
    rw [updFirst]
    by_cases htc : isTag t c
    · rw [if_pos htc, findC_cons, if_pos (by rw [hf]; exact htc), findC_cons, if_pos htc]
      rfl
    · rw [if_neg htc, findC_cons, if_neg htc, findC_cons, if_neg htc, ih]

theorem findC_insAfter_of_none (t : String) (p : Node → Bool) (x : Node)
    (hx : isTag t x = true) :
    ∀ l, findC t l = none → findC t (insAfter p x l) = some x := by
  intro l
  induction l with
  | nil => intro _; rw [insAfter, findC_cons, if_pos hx]
  | cons c cs ih =>
    intro h
    rw [findC_cons] at h
    by_cases htc : isTag t c
    · rw [if_pos htc] at h; cases h
    · rw [if_neg htc] at h
      rw [insAfter]
      by_cases hpc : p c
      · rw [if_pos hpc, findC_cons, if_neg htc, findC_cons, if_pos hx]
      · rw [if_neg hpc, findC_cons, if_neg htc]
        exact ih h

theorem findC_append_of_none (t : String) (x : Node) (hx : isTag t x = true) :
    ∀ l, findC t l = none → findC t (l ++ [x]) = some x := by
  intro l
  induction l with
  | nil => intro _; rw [List.nil_append, findC_cons, if_pos hx]
  | cons c cs ih =>
    intro h
    rw [findC_cons] at h
    by_cases htc : isTag t c
    · rw [if_pos htc] at h; cases h
    · rw [if_neg htc] at h
      rw [List.cons_append, findC_cons, if_neg htc]
      exact ih h

/-! ### Congruence of the rule-guard predicates

Each local guard reads only the first `target`/`driver`/`model`/`gl` child
and that child's attributes, so it is invariant both under equal `findC`
results and under pointwise top preservation. -/

theorem diskLocalOK_congr (t : String) (a : Attrs) (l1 l2 : List Node)
    (h1 : findC "target" l1 = findC "target" l2)
    (h2 : findC "driver" l1 = findC "driver" l2) :
    diskLocalOK t a l1 = diskLocalOK t a l2 := by
  rw [diskLocalOK, diskLocalOK, h1, h2]

theorem nicLocalOK_congr (t : String) (l1 l2 : List Node)
    (h1 : findC "model" l1 = findC "model" l2) :
    nicLocalOK t l1 = nicLocalOK t l2 := by
  rw [nicLocalOK, nicLocalOK, h1]

theorem videoLocalOK_congr (t : String) (l1 l2 : List Node)
    (h1 : findC "model" l1 = findC "model" l2) :
    videoLocalOK t l1 = videoLocalOK t l2 := by
  rw [videoLocalOK, videoLocalOK, h1]

theorem spiceLocalOK_congr (t : String) (a : Attrs) (l1 l2 : List Node)
    (h1 : findC "gl" l1 = findC "gl" l2) :
    spiceLocalOK t a l1 = spiceLocalOK t a l2 := by
  rw [spiceLocalOK, spiceLocalOK, h1]

theorem diskLocalOK_topPres (t : String) (a : Attrs) (l1 l2 : List Node)
    (h : TopPres l1 l2) : diskLocalOK t a l1 = diskLocalOK t a l2 := by
  rw [diskLocalOK, diskLocalOK]
  rcases findC_topPres "target" l1 l2 h with ⟨e1, e2⟩ | ⟨x, y, e1, e2, exy⟩ <;>
    rcases findC_topPres "driver" l1 l2 h with ⟨f1, f2⟩ | ⟨u, v, f1, f2, fuv⟩ <;>
      rw [e1, e2, f1, f2] <;> dsimp only
  · rw [fuv.2]
  · rw [exy.2]
  · rw [exy.2, fuv.2]

theorem nicLocalOK_topPres (t : String) (l1 l2 : List Node)
    (h : TopPres l1 l2) : nicLocalOK t l1 = nicLocalOK t l2 := by
  rw [nicLocalOK, nicLocalOK]
  rcases findC_topPres "model" l1 l2 h with ⟨e1, e2⟩ | ⟨x, y, e1, e2, exy⟩ <;> rw [e1, e2]
  dsimp only
  rw [exy.2]

theorem videoLocalOK_topPres (t : String) (l1 l2 : List Node)
    (h : TopPres l1 l2) : videoLocalOK t l1 = videoLocalOK t l2 := by
  rw [videoLocalOK, videoLocalOK]
  rcases findC_topPres "model" l1 l2 h with ⟨e1, e2⟩ | ⟨x, y, e1, e2, exy⟩ <;> rw [e1, e2]
  dsimp only
  rw [exy.2]

theorem spiceLocalOK_topPres (t : String) (a : Attrs) (l1 l2 : List Node)
    (h : TopPres l1 l2) : spiceLocalOK t a l1 = spiceLocalOK t a l2 := by
  rw [spiceLocalOK, spiceLocalOK]
  rcases findC_topPres "gl" l1 l2 h with ⟨e1, e2⟩ | ⟨x, y, e1, e2, exy⟩ <;> rw [e1, e2]
  dsimp only
  rw [exy.2]

/-! ### The traversal passes never change a node's own tag or attributes -/

theorem nicN_top (n : Node) : topSame n (nicN n).1 := by
  cases n with
  | text s => exact topSame_refl _
  | elem t a cs =>
    constructor
    · intro t'
      rw [nicN]
      by_cases h : (t == "interface") = true <;> simp only [h, if_true, if_false, isTag,
        Bool.false_eq_true]
    · rw [nicN]
      by_cases h : (t == "interface") = true <;> simp only [h, if_true, if_false,
        Bool.false_eq_true, Node.attrsOf]

theorem nicL_top : ∀ cs, TopPres cs (nicL cs).1 := by
  intro cs
  induction cs with
  | nil => exact List.Forall₂.nil
  | cons c cs ih => exact List.Forall₂.cons (nicN_top c) ih

theorem videoN_top (n : Node) : topSame n (videoN n).1 := by
  cases n with
  | text s => exact topSame_refl _
  | elem t a cs =>
    constructor
    · intro t'
      rw [videoN]
      by_cases h : (t == "video") = true <;> simp only [h, if_true, if_false, isTag,
        Bool.false_eq_true]
    · rw [videoN]
      by_cases h : (t == "video") = true <;> simp only [h, if_true, if_false,
        Bool.false_eq_true, Node.attrsOf]

theorem videoL_top : ∀ cs, TopPres cs (videoL cs).1 := by
  intro cs
  induction cs with
  | nil => exact List.Forall₂.nil
  | cons c cs ih => exact List.Forall₂.cons (videoN_top c) ih

theorem spiceN_top (n : Node) : topSame n (spiceN n).1 := by
  cases n with
  | text s => exact topSame_refl _
  | elem t a cs =>
    constructor
    · intro t'
      rw [spiceN]
      by_cases h : isSpiceGraphics t a = true <;> simp only [h, if_true, if_false, isTag,
        Bool.false_eq_true]
    · rw [spiceN]
      by_cases h : isSpiceGraphics t a = true <;> simp only [h, if_true, if_false,
        Bool.false_eq_true, Node.attrsOf]

theorem spiceL_top : ∀ cs, TopPres cs (spiceL cs).1 := by
  intro cs
  induction cs with
  | nil => exact List.Forall₂.nil
  | cons c cs ih => exact List.Forall₂.cons (spiceN_top c) ih

theorem disk_top :
    (∀ n, ∀ st n2 ch st2, diskN st n = .ok (n2, ch, st2) → topSame n n2) ∧
    (∀ ns, ∀ st ns2 ch st2, diskL st ns = .ok (ns2, ch, st2) → TopPres ns ns2) := by
  refine nodeInd
    (fun n => ∀ st n2 ch st2, diskN st n = .ok (n2, ch, st2) → topSame n n2)
    (fun ns => ∀ st ns2 ch st2, diskL st ns = .ok (ns2, ch, st2) → TopPres ns ns2)
    ?_ ?_ ?_ ?_
  · intro t a cs _ st n2 ch st2 h
    rw [diskN] at h
    by_cases hd : isDiskDisk t a = true
    · rw [if_pos hd] at h
      cases h1 : diskTargetInfo st cs with
      | error e => rw [h1] at h; cases h
      | ok pA =>
        rw [h1] at h
        dsimp only at h
        cases h2 : diskL pA.2 cs with
        | error e => rw [h2] at h; cases h
        | ok p2 =>
          rw [h2] at h
          dsimp only at h
          simp only [Except.ok.injEq, Prod.mk.injEq] at h
          obtain ⟨hn, -, -⟩ := h
          subst hn
          exact ⟨fun t' => rfl, rfl⟩
    · rw [if_neg hd] at h
      cases h2 : diskL st cs with
      | error e => rw [h2] at h; cases h
      | ok p2 =>
        rw [h2] at h
        dsimp only at h
        simp only [Except.ok.injEq, Prod.mk.injEq] at h
        obtain ⟨hn, -, -⟩ := h
        subst hn
        exact ⟨fun t' => rfl, rfl⟩
  · intro s st n2 ch st2 h
    rw [diskN] at h
    simp only [Except.ok.injEq, Prod.mk.injEq] at h
    obtain ⟨hn, -, -⟩ := h
    subst hn
    exact topSame_refl _
  · intro st ns2 ch st2 h
    rw [diskL] at h
    simp only [Except.ok.injEq, Prod.mk.injEq] at h
    obtain ⟨hn, -, -⟩ := h
    subst hn
    exact List.Forall₂.nil
  · intro n ns ihn ihl st ns2 ch st2 h
    rw [diskL] at h
    cases h1 : diskN st n with
    | error e => rw [h1] at h; cases h
    | ok p1 =>
      rw [h1] at h
      dsimp only at h
      cases h2 : diskL p1.2.2 ns with
      | error e => rw [h2] at h; cases h
      | ok p2 =>
        rw [h2] at h
        dsimp only at h
        simp only [Except.ok.injEq, Prod.mk.injEq] at h
        obtain ⟨hn, -, -⟩ := h
        subst hn
        exact List.Forall₂.cons (ihn st p1.1 p1.2.1 p1.2.2 h1) (ihl p1.2.2 p2.1 p2.2.1 p2.2.2 h2)

theorem setAttrOn_isTag (t k v : String) (x : Node) : isTag t (setAttrOn k v x) = isTag t x := by
  cases x <;> rfl

theorem appendChildOn_isTag (t : String) (y x : Node) :
    isTag t (appendChildOn y x) = isTag t x := by
  cases x <;> rfl

theorem isTag_ne_of_isTag (t1 t2 : String) (x : Node)
    (h : isTag t1 x = true) (hne : t2 ≠ t1) : isTag t2 x = false := by
  cases h2 : isTag t2 x
  · rfl
  · exact absurd (isTag_unique t2 t1 x h2 h) hne

/-! ### Generic preservation of a per-node guard predicate by each traversal pass

`PLoc`/`PN`/`PL` stand for one of the `…LocalOK`/`…OKn`/`…OKl` families; the
hypotheses say that the guard is vacuous at the tags the pass touches and
depends only on the top structure of the children. -/

theorem nicPass_pres (PLoc : String → Attrs → List Node → Bool)
    (PN : Node → Bool) (PL : List Node → Bool)
    (htext : ∀ s, PN (.text s) = true)
    (hcons : ∀ c cs, PL (c :: cs) = (PN c && PL cs))
    (helem : ∀ t a cs, PN (.elem t a cs) = (PLoc t a cs && PL cs))
    (hiface : ∀ a cs, PLoc "interface" a cs = true)
    (hmodel : ∀ a cs, PLoc "model" a cs = true)
    (hcongr : ∀ t a l1 l2, TopPres l1 l2 → PLoc t a l1 = PLoc t a l2) :
    (∀ n, PN n = true → PN (nicN n).1 = true) ∧
    (∀ cs, PL cs = true → PL (nicL cs).1 = true) := by
  refine nodeInd (fun n => PN n = true → PN (nicN n).1 = true)
    (fun cs => PL cs = true → PL (nicL cs).1 = true) ?_ ?_ ?_ ?_
  · intro t a cs ih h
    rw [helem, Bool.and_eq_true] at h
    simp only [nicN]
    by_cases ht : (t == "interface") = true
    · rw [if_pos ht]
      dsimp only
      rw [helem, Bool.and_eq_true]
      have hteq : t = "interface" := by simpa using ht
      refine ⟨hteq ▸ hiface a _, ?_⟩
      have hl := ih h.2
      rw [nicStep]
      cases hf : findC "model" (nicL cs).1 with
      | none => exact hl
      | some m =>
        dsimp only
        by_cases hleg : nicLegacy (getD m.attrsOf "type" "unknown") = true
        · rw [if_pos hleg]
          dsimp only
          refine okl_updFirst PN PL hcons _ _ ?_ _ hl
          intro x hx hPx
          cases x with
          | text s => rw [isTag] at hx; cases hx
          | elem tx ax cx =>
            have htx : tx = "model" := by simpa [isTag] using hx
            subst htx
            rw [setAttrOn, helem, Bool.and_eq_true]
            rw [helem, Bool.and_eq_true] at hPx
            exact ⟨hmodel _ _, hPx.2⟩
        · rw [if_neg hleg]
          exact hl
    · rw [if_neg ht]
      dsimp only
      rw [helem, Bool.and_eq_true]
      refine ⟨?_, ih h.2⟩
      rw [← hcongr t a cs (nicL cs).1 (nicL_top cs)]
      exact h.1
  · intro s _
    simp only [nicN]
    exact htext s
  · intro h
    simp only [nicL]
    exact h
  · intro n ns ihn ihl h
    rw [hcons, Bool.and_eq_true] at h
    simp only [nicL]
    rw [hcons, Bool.and_eq_true]
    exact ⟨ihn h.1, ihl h.2⟩

theorem videoPass_pres (PLoc : String → Attrs → List Node → Bool)
    (PN : Node → Bool) (PL : List Node → Bool)
    (htext : ∀ s, PN (.text s) = true)
    (hnil : PL [] = true)
    (hcons : ∀ c cs, PL (c :: cs) = (PN c && PL cs))
    (helem : ∀ t a cs, PN (.elem t a cs) = (PLoc t a cs && PL cs))
    (hvideo : ∀ a cs, PLoc "video" a cs = true)
    (hmodel : ∀ a cs, PLoc "model" a cs = true)
    (haccel : ∀ a cs, PLoc "acceleration" a cs = true)
    (hcongr : ∀ t a l1 l2, TopPres l1 l2 → PLoc t a l1 = PLoc t a l2) :
    (∀ n, PN n = true → PN (videoN n).1 = true) ∧
    (∀ cs, PL cs = true → PL (videoL cs).1 = true) := by
  refine nodeInd (fun n => PN n = true → PN (videoN n).1 = true)
    (fun cs => PL cs = true → PL (videoL cs).1 = true) ?_ ?_ ?_ ?_
  · intro t a cs ih h
    rw [helem, Bool.and_eq_true] at h
    simp only [videoN]
    by_cases ht : (t == "video") = true
    · rw [if_pos ht]
      dsimp only
      rw [helem, Bool.and_eq_true]
      have hteq : t = "video" := by simpa using ht
      refine ⟨hteq ▸ hvideo a _, ?_⟩
      have hl := ih h.2
      rw [videoStep]
      cases hf : findC "model" (videoL cs).1 with
      | none => exact hl
      | some m =>
        dsimp only
        by_cases hleg : videoLegacy (getD m.attrsOf "type" "unknown") = true
        · rw [if_pos hleg]
          dsimp only
          refine okl_updFirst PN PL hcons _ _ ?_ _ hl
          intro x hx hPx
          cases x with
          | text s => rw [isTag] at hx; cases hx
          | elem tx ax cx =>
            have htx : tx = "model" := by simpa [isTag] using hx
            subst htx
            rw [helem, Bool.and_eq_true] at hPx
            rw [videoModelUpd]
            cases hacc : findC "acceleration" cx with
            | some acc =>
              dsimp only
              rw [helem, Bool.and_eq_true]
              refine ⟨hmodel _ _, ?_⟩
              refine okl_updFirst PN PL hcons _ _ ?_ _ hPx.2
              intro y hy hPy
              cases y with
              | text s => rw [isTag] at hy; cases hy
              | elem ty ay cy =>
                have hty : ty = "acceleration" := by simpa [isTag] using hy
                subst hty
                rw [setAttrOn, helem, Bool.and_eq_true]
                rw [helem, Bool.and_eq_true] at hPy
                exact ⟨haccel _ _, hPy.2⟩
            | none =>
              dsimp only
              rw [helem, Bool.and_eq_true]
              refine ⟨hmodel _ _, ?_⟩
              refine okl_append PN PL hnil hcons _ ?_ _ hPx.2
              rw [helem, Bool.and_eq_true]
              exact ⟨haccel _ _, hnil⟩
        · rw [if_neg hleg]
          exact hl
    · rw [if_neg ht]
      dsimp only
      rw [helem, Bool.and_eq_true]
      refine ⟨?_, ih h.2⟩
      rw [← hcongr t a cs (videoL cs).1 (videoL_top cs)]
      exact h.1
  · intro s _
    simp only [videoN]
    exact htext s
  · intro h
    simp only [videoL]
    exact h
  · intro n ns ihn ihl h
    rw [hcons, Bool.and_eq_true] at h
    simp only [videoL]
    rw [hcons, Bool.and_eq_true]
    exact ⟨ihn h.1, ihl h.2⟩

theorem spicePass_pres (PLoc : String → Attrs → List Node → Bool)
    (PN : Node → Bool) (PL : List Node → Bool)
    (htext : ∀ s, PN (.text s) = true)
    (hnil : PL [] = true)
    (hcons : ∀ c cs, PL (c :: cs) = (PN c && PL cs))
    (helem : ∀ t a cs, PN (.elem t a cs) = (PLoc t a cs && PL cs))
    (hgraph : ∀ a cs, PLoc "graphics" a cs = true)
    (hgl : ∀ a cs, PLoc "gl" a cs = true)
    (hcongr : ∀ t a l1 l2, TopPres l1 l2 → PLoc t a l1 = PLoc t a l2) :
    (∀ n, PN n = true → PN (spiceN n).1 = true) ∧
    (∀ cs, PL cs = true → PL (spiceL cs).1 = true) := by
  refine nodeInd (fun n => PN n = true → PN (spiceN n).1 = true)
    (fun cs => PL cs = true → PL (spiceL cs).1 = true) ?_ ?_ ?_ ?_
  · intro t a cs ih h
    rw [helem, Bool.and_eq_true] at h
    simp only [spiceN]
    by_cases ht : isSpiceGraphics t a = true
    · rw [if_pos ht]
      dsimp only
      rw [helem, Bool.and_eq_true]
      have hteq : t = "graphics" := by
        rw [isSpiceGraphics, Bool.and_eq_true] at ht
        simpa using ht.1
      refine ⟨hteq ▸ hgraph a _, ?_⟩
      have hglupd : ∀ x, isTag "gl" x = true → PN x = true → PN (glUpd x) = true := by
        intro x hx hPx
        cases x with
        | text s => rw [isTag] at hx; cases hx
        | elem tx ax cx =>
          have htx : tx = "gl" := by simpa [isTag] using hx
          subst htx
          rw [glUpd]
          rw [helem, Bool.and_eq_true] at hPx
          rw [helem, Bool.and_eq_true]
          exact ⟨hgl _ _, hPx.2⟩
      have hstep : ∀ l, PL l = true → PL (spiceStep l).1 = true := by
        intro l hl
        unfold spiceStep
        dsimp only
        split
        · split
          · exact hl
          · exact okl_updFirst PN PL hcons _ _ hglupd _ hl
        · have h0 : PL (l ++ [.elem "gl" [] []]) = true := by
            refine okl_append PN PL hnil hcons _ ?_ _ hl
            rw [helem, Bool.and_eq_true]
            exact ⟨hgl _ _, hnil⟩
          split
          · exact h0
          · exact okl_updFirst PN PL hcons _ _ hglupd _ h0
      exact hstep _ (ih h.2)
    · rw [if_neg ht]
      dsimp only
      rw [helem, Bool.and_eq_true]
      refine ⟨?_, ih h.2⟩
      rw [← hcongr t a cs (spiceL cs).1 (spiceL_top cs)]
      exact h.1
  · intro s _
    simp only [spiceN]
    exact htext s
  · intro h
    simp only [spiceL]
    exact h
  · intro n ns ihn ihl h
    rw [hcons, Bool.and_eq_true] at h
    simp only [spiceL]
    rw [hcons, Bool.and_eq_true]
    exact ⟨ihn h.1, ihl h.2⟩

/-- The four result shapes of a successful CPU pass: the child list with the
`cpu` child's attributes possibly rewritten and a `topology` sub-node
possibly appended, or a fresh `cpu` node inserted after `vcpu` / at the
end. -/
theorem cpuStep_cases (cs cs5 : List Node) (ch : List Change)
    (h : cpuStep cs = .ok (cs5, ch)) :
    (∃ n : Int, ∃ cs1 : List Node,
      (cs1 = cs ∨ cs1 = updFirst (isTag "cpu")
        (fun cn => setAttrOn "migratable" "on" (setAttrOn "check" "none"
          (setAttrOn "mode" "host-passthrough" cn))) cs) ∧
      (cs5 = updFirst (isTag "cpu") (appendChildOn (topoNode n)) cs1 ∨ cs5 = cs1)) ∨
    (∃ n : Int, cs5 = insAfter (isTag "vcpu") (cpuNode n) cs) ∨
    cs5 = cs ++ [cpuNode 1] := by
  rw [cpuStep] at h
  cases hc : findC "cpu" cs with
  | some c =>
    rw [hc] at h
    dsimp only at h
    have hcs1 : ∀ l : List Node, l = l := fun _ => rfl
    cases hv : findC "vcpu" cs with
    | some v =>
      rw [hv] at h
      dsimp only at h
      cases hpi : pyIntOpt (pyOrOne v.textOf) with
      | none => rw [hpi] at h; cases h
      | some n =>
        rw [hpi] at h
        dsimp only at h
        split at h
        · simp only [Except.ok.injEq, Prod.mk.injEq] at h
          obtain ⟨h1, -⟩ := h
          refine Or.inl ⟨n, _, ?_, Or.inl h1.symm⟩
          by_cases hm : (!(getD c.attrsOf "mode" "custom" == "host-passthrough")) = true
          · rw [if_pos hm]; exact Or.inr rfl
          · rw [if_neg hm]; exact Or.inl rfl
        · simp only [Except.ok.injEq, Prod.mk.injEq] at h
          obtain ⟨h1, -⟩ := h
          refine Or.inl ⟨0, _, ?_, Or.inr h1.symm⟩
          by_cases hm : (!(getD c.attrsOf "mode" "custom" == "host-passthrough")) = true
          · rw [if_pos hm]; exact Or.inr rfl
          · rw [if_neg hm]; exact Or.inl rfl
    | none =>
      rw [hv] at h
      dsimp only at h
      simp only [Except.ok.injEq, Prod.mk.injEq] at h
      obtain ⟨h1, -⟩ := h
      refine Or.inl ⟨0, _, ?_, Or.inr h1.symm⟩
      by_cases hm : (!(getD c.attrsOf "mode" "custom" == "host-passthrough")) = true
      · rw [if_pos hm]; exact Or.inr rfl
      · rw [if_neg hm]; exact Or.inl rfl
  | none =>
    rw [hc] at h
    dsimp only at h
    cases hv : findC "vcpu" cs with
    | some v =>
      rw [hv] at h
      dsimp only at h
      cases htx : v.textOf with
      | none => rw [htx] at h; cases h
      | some s =>
        rw [htx] at h
        dsimp only at h
        cases hpi : pyIntOpt s with
        | none => rw [hpi] at h; cases h
        | some n =>
          rw [hpi] at h
          dsimp only at h
          simp only [Except.ok.injEq, Prod.mk.injEq] at h
          obtain ⟨h1, -⟩ := h
          exact Or.inr (Or.inl ⟨n, h1.symm⟩)
    | none =>
      rw [hv] at h
      dsimp only at h
      simp only [Except.ok.injEq, Prod.mk.injEq] at h
      obtain ⟨h1, -⟩ := h
      exact Or.inr (Or.inr h1.symm)

/-- A successful CPU pass only touches `cpu`-tagged children and insertions
of fresh `cpu` nodes, so `find` for any other tag is unchanged. -/
theorem cpuStep_findC (cs cs5 : List Node) (ch : List Change)
    (h : cpuStep cs = .ok (cs5, ch)) (tg : String) (htg : tg ≠ "cpu") :
    findC tg cs5 = findC tg cs := by
  have hcpuNode : ∀ n : Int, isTag tg (cpuNode n) = false := by
    intro n
    simp only [cpuNode, isTag, beq_eq_false_iff_ne]
    exact Ne.symm htg
  rcases cpuStep_cases cs cs5 ch h with ⟨n, cs1, hcs1, hcs5⟩ | ⟨n, hcs5⟩ | hcs5
  · have h1 : findC tg cs1 = findC tg cs := by
      rcases hcs1 with rfl | rfl
      · rfl
      · exact findC_updFirst_of_ne tg _ _ (fun x hx => isTag_ne_of_isTag "cpu" tg x hx htg)
          (fun x hx => by
            rw [setAttrOn_isTag, setAttrOn_isTag, setAttrOn_isTag]
            exact isTag_ne_of_isTag "cpu" tg x hx htg) cs
    rcases hcs5 with rfl | rfl
    · rw [findC_updFirst_of_ne tg _ _ (fun x hx => isTag_ne_of_isTag "cpu" tg x hx htg)
        (fun x hx => by
          rw [appendChildOn_isTag]
          exact isTag_ne_of_isTag "cpu" tg x hx htg) cs1, h1]
    · exact h1
  · subst hcs5
    exact findC_insAfter_of_ne tg _ _ (hcpuNode n) cs
  · subst hcs5
    exact findC_append_ne tg _ (hcpuNode 1) cs

/-- Generic preservation of a guard predicate by the CPU pass. -/
theorem cpuStep_pres (PLoc : String → Attrs → List Node → Bool)
    (PN : Node → Bool) (PL : List Node → Bool)
    (hnil : PL [] = true)
    (hcons : ∀ c cs, PL (c :: cs) = (PN c && PL cs))
    (helem : ∀ t a cs, PN (.elem t a cs) = (PLoc t a cs && PL cs))
    (hcpu : ∀ a cs, PLoc "cpu" a cs = true)
    (htopo : ∀ a cs, PLoc "topology" a cs = true)
    (hcongr : ∀ t a l1 l2,
       findC "target" l1 = findC "target" l2 → findC "driver" l1 = findC "driver" l2 →
       findC "model" l1 = findC "model" l2 → findC "gl" l1 = findC "gl" l2 →
       PLoc t a l1 = PLoc t a l2)
    (cs cs5 : List Node) (ch : List Change) (h : cpuStep cs = .ok (cs5, ch))
    (t : String) (a : Attrs) (hP : PN (.elem t a cs) = true) :
    PN (.elem t a cs5) = true := by
  rw [helem, Bool.and_eq_true] at hP
  rw [helem, Bool.and_eq_true]
  have hfind : ∀ tg, tg ≠ "cpu" → findC tg cs5 = findC tg cs :=
    fun tg htg => cpuStep_findC cs cs5 ch h tg htg
  constructor
  · rw [hcongr t a cs5 cs (hfind "target" (by decide)) (hfind "driver" (by decide))
      (hfind "model" (by decide)) (hfind "gl" (by decide))]
    exact hP.1
  · have hPtopo : ∀ n : Int, PN (topoNode n) = true := by
      intro n
      rw [topoNode, helem, Bool.and_eq_true]
      exact ⟨htopo _ _, hnil⟩
    have hPcpuN : ∀ n : Int, PN (cpuNode n) = true := by
      intro n
      rw [cpuNode, helem, Bool.and_eq_true]
      refine ⟨hcpu _ _, ?_⟩
      rw [hcons, Bool.and_eq_true]
      exact ⟨hPtopo n, hnil⟩
    have hchain : ∀ x, isTag "cpu" x = true → PN x = true →
        PN (setAttrOn "migratable" "on" (setAttrOn "check" "none"
          (setAttrOn "mode" "host-passthrough" x))) = true := by
      intro x hx hPx
      cases x with
      | text s => rw [isTag] at hx; cases hx
      | elem tx ax cx =>
        have htx : tx = "cpu" := by simpa [isTag] using hx
        subst htx
        rw [setAttrOn, setAttrOn, setAttrOn, helem, Bool.and_eq_true]
        rw [helem, Bool.and_eq_true] at hPx
        exact ⟨hcpu _ _, hPx.2⟩
    have happend : ∀ (n : Int) x, isTag "cpu" x = true → PN x = true →
        PN (appendChildOn (topoNode n) x) = true := by
      intro n x hx hPx
      cases x with
      | text s => rw [isTag] at hx; cases hx
      | elem tx ax cx =>
        have htx : tx = "cpu" := by simpa [isTag] using hx
        subst htx
        rw [appendChildOn, helem, Bool.and_eq_true]
        rw [helem, Bool.and_eq_true] at hPx
        exact ⟨hcpu _ _, okl_append PN PL hnil hcons _ (hPtopo n) _ hPx.2⟩
    rcases cpuStep_cases cs cs5 ch h with ⟨n, cs1, hcs1, hcs5⟩ | ⟨n, hcs5⟩ | hcs5
    · have hPL1 : PL cs1 = true := by
        rcases hcs1 with rfl | rfl
        · exact hP.2
        · exact okl_updFirst PN PL hcons _ _ hchain _ hP.2
      rcases hcs5 with rfl | rfl
      · exact okl_updFirst PN PL hcons _ _ (happend n) _ hPL1
      · exact hPL1
    · subst hcs5
      exact okl_insAfter PN PL hcons _ _ (hPcpuN n) _ hP.2
    · subst hcs5
      exact okl_append PN PL hnil hcons _ (hPcpuN 1) _ hP.2

/-! ### Each pass establishes its own guard predicate on its output -/

theorem nic_est : (∀ n, nicOKn (nicN n).1 = true) ∧ (∀ cs, nicOKl (nicL cs).1 = true) := by
  refine nodeInd (fun n => nicOKn (nicN n).1 = true)
    (fun cs => nicOKl (nicL cs).1 = true) ?_ ?_ ?_ ?_
  · intro t a cs ih
    simp only [nicN]
    by_cases ht : (t == "interface") = true
    · rw [if_pos ht]
      dsimp only
      simp only [nicOKn, Bool.and_eq_true]
      constructor
      · rw [nicLocalOK, if_pos ht]
        rw [nicStep]
        cases hf : findC "model" (nicL cs).1 with
        | none =>
          dsimp only
          rw [hf]
        | some m =>
          dsimp only
          by_cases hleg : nicLegacy (getD m.attrsOf "type" "unknown") = true
          · rw [if_pos hleg]
            dsimp only
            rw [findC_updFirst_self "model" _ (fun x => setAttrOn_isTag _ _ _ x) _, hf]
            rw [show Option.map (setAttrOn "type" "virtio") (some m) =
              some (setAttrOn "type" "virtio" m) from rfl]
            dsimp only
            have hm : isTag "model" m = true := List.find?_some hf
            cases m with
            | text s => rw [isTag] at hm; cases hm
            | elem tm am cm =>
              rw [setAttrOn]
              dsimp only [Node.attrsOf]
              rw [getD, getA_setA_same]
              rfl
          · rw [if_neg hleg]
            dsimp only
            rw [hf]
            dsimp only
            have : nicLegacy (getD m.attrsOf "type" "unknown") = false := by
              simpa using hleg
            rw [this]
            rfl
      · rw [nicStep]
        cases hf : findC "model" (nicL cs).1 with
        | none => exact ih
        | some m =>
          dsimp only
          by_cases hleg : nicLegacy (getD m.attrsOf "type" "unknown") = true
          · rw [if_pos hleg]
            dsimp only
            refine okl_updFirst nicOKn nicOKl (fun c cs => rfl) _ _ ?_ _ ih
            intro x hx hPx
            cases x with
            | text s => rw [isTag] at hx; cases hx
            | elem tx ax cx =>
              have htx : tx = "model" := by simpa [isTag] using hx
              subst htx
              rw [setAttrOn]
              simp only [nicOKn, Bool.and_eq_true] at hPx ⊢
              exact ⟨rfl, hPx.2⟩
          · rw [if_neg hleg]
            exact ih
    · rw [if_neg ht]
      dsimp only
      simp only [nicOKn, Bool.and_eq_true]
      refine ⟨?_, ih⟩
      rw [nicLocalOK, if_neg ht]
  · intro s
    simp only [nicN]
    rfl
  · simp only [nicL]
    rfl
  · intro n ns ihn ihl
    simp only [nicL]
    simp only [nicOKl, Bool.and_eq_true]
    exact ⟨ihn, ihl⟩

theorem videoModelUpd_isTag (t : String) (x : Node) :
    isTag t (videoModelUpd x) = isTag t x := by
  cases x with
  | text s => rfl
  | elem tx ax cx =>
    rw [videoModelUpd]
    cases hacc : findC "acceleration" cx <;> rfl

theorem videoModelUpd_type (x : Node) (hx : isTag "model" x = true) :
    getD (videoModelUpd x).attrsOf "type" "unknown" = "virtio" := by
  cases x with
  | text s => rw [isTag] at hx; cases hx
  | elem tx ax cx =>
    rw [videoModelUpd]
    have hA : getD (setA (setA (setA ax "type" "virtio") "heads" "1") "primary" "yes")
        "type" "unknown" = "virtio" := by
      rw [getD, getA_setA_other _ _ _ _ (by decide), getA_setA_other _ _ _ _ (by decide),
        getA_setA_same]
      rfl
    cases hacc : findC "acceleration" cx <;> dsimp only [Node.attrsOf] <;> exact hA

theorem video_est : (∀ n, videoOKn (videoN n).1 = true) ∧
    (∀ cs, videoOKl (videoL cs).1 = true) := by
  refine nodeInd (fun n => videoOKn (videoN n).1 = true)
    (fun cs => videoOKl (videoL cs).1 = true) ?_ ?_ ?_ ?_
  · intro t a cs ih
    simp only [videoN]
    by_cases ht : (t == "video") = true
    · rw [if_pos ht]
      dsimp only
      simp only [videoOKn, Bool.and_eq_true]
      constructor
      · rw [videoLocalOK, if_pos ht]
        rw [videoStep]
        cases hf : findC "model" (videoL cs).1 with
        | none =>
          dsimp only
          rw [hf]
        | some m =>
          dsimp only
          by_cases hleg : videoLegacy (getD m.attrsOf "type" "unknown") = true
          · rw [if_pos hleg]
            dsimp only
            rw [findC_updFirst_self "model" _ (fun x => videoModelUpd_isTag _ x) _, hf]
            rw [show Option.map videoModelUpd (some m) = some (videoModelUpd m) from rfl]
            dsimp only
            rw [videoModelUpd_type m (List.find?_some hf)]
            rfl
          · rw [if_neg hleg]
            dsimp only
            rw [hf]
            dsimp only
            have : videoLegacy (getD m.attrsOf "type" "unknown") = false := by
              simpa using hleg
            rw [this]
            rfl
      · rw [videoStep]
        cases hf : findC "model" (videoL cs).1 with
        | none => exact ih
        | some m =>
          dsimp only
          by_cases hleg : videoLegacy (getD m.attrsOf "type" "unknown") = true
          · rw [if_pos hleg]
            dsimp only
            refine okl_updFirst videoOKn videoOKl (fun c cs => rfl) _ _ ?_ _ ih
            intro x hx hPx
            cases x with
            | text s => rw [isTag] at hx; cases hx
            | elem tx ax cx =>
              have htx : tx = "model" := by simpa [isTag] using hx
              subst htx
              simp only [videoOKn, Bool.and_eq_true] at hPx
              rw [videoModelUpd]
              cases hacc : findC "acceleration" cx with
              | some acc =>
                dsimp only
                simp only [videoOKn, Bool.and_eq_true]
                refine ⟨rfl, ?_⟩
                refine okl_updFirst videoOKn videoOKl (fun c cs => rfl) _ _ ?_ _ hPx.2
                intro y hy hPy
                cases y with
                | text s => rw [isTag] at hy; cases hy
                | elem ty ay cy =>
                  have hty : ty = "acceleration" := by simpa [isTag] using hy
                  subst hty
                  rw [setAttrOn]
                  simp only [videoOKn, Bool.and_eq_true] at hPy ⊢
                  exact ⟨rfl, hPy.2⟩
              | none =>
                dsimp only
                simp only [videoOKn, Bool.and_eq_true]
                refine ⟨rfl, ?_⟩
                refine okl_append videoOKn videoOKl rfl (fun c cs => rfl) _ ?_ _ hPx.2
                rfl
          · rw [if_neg hleg]
            exact ih
    · rw [if_neg ht]
      dsimp only
      simp only [videoOKn, Bool.and_eq_true]
      refine ⟨?_, ih⟩
      rw [videoLocalOK, if_neg ht]
  · intro s
    simp only [videoN]
    rfl
  · simp only [videoL]
    rfl
  · intro n ns ihn ihl
    simp only [videoL]
    simp only [videoOKl, Bool.and_eq_true]
    exact ⟨ihn, ihl⟩

theorem glUpd_isTag (t : String) (x : Node) : isTag t (glUpd x) = isTag t x := by
  cases x <;> rfl

theorem glUpd_enable (g : Node) (hg : isTag "gl" g = true) :
    getD (glUpd g).attrsOf "enable" "no" = "yes" := by
  cases g with
  | text s => rw [isTag] at hg; cases hg
  | elem tg ag cg =>
    rw [glUpd]
    dsimp only [Node.attrsOf]
    by_cases hr : (getA (setA ag "enable" "yes") "rendernode").isSome = true
    · rw [if_pos hr, getD, getA_setA_same]
      rfl
    · rw [if_neg hr, getD, getA_setA_other _ _ _ _ (by decide), getA_setA_same]
      rfl

theorem spice_est : (∀ n, spiceOKn (spiceN n).1 = true) ∧
    (∀ cs, spiceOKl (spiceL cs).1 = true) := by
  have hglupdOK : ∀ x, isTag "gl" x = true → spiceOKn x = true → spiceOKn (glUpd x) = true := by
    intro x hx hPx
    cases x with
    | text s => rw [isTag] at hx; cases hx
    | elem tx ax cx =>
      have htx : tx = "gl" := by simpa [isTag] using hx
      subst htx
      rw [glUpd]
      simp only [spiceOKn, Bool.and_eq_true] at hPx ⊢
      exact ⟨rfl, hPx.2⟩
  refine nodeInd (fun n => spiceOKn (spiceN n).1 = true)
    (fun cs => spiceOKl (spiceL cs).1 = true) ?_ ?_ ?_ ?_
  · intro t a cs ih
    simp only [spiceN]
    by_cases ht : isSpiceGraphics t a = true
    · rw [if_pos ht]
      dsimp only
      simp only [spiceOKn, Bool.and_eq_true]
      constructor
      · rw [spiceLocalOK, if_pos ht]
        unfold spiceStep
        dsimp only
        by_cases hg : (findC "gl" (spiceL cs).1).isSome = true
        · obtain ⟨g, hfg⟩ := Option.isSome_iff_exists.mp hg
          rw [if_pos hg, hfg]
          dsimp only
          by_cases hyes : (getD g.attrsOf "enable" "no" == "yes") = true
          · rw [if_pos hyes]
            dsimp only
            rw [hfg]
            exact hyes
          · rw [if_neg hyes]
            dsimp only
            rw [findC_updFirst_self "gl" _ (fun x => glUpd_isTag _ x) _, hfg]
            rw [show Option.map glUpd (some g) = some (glUpd g) from rfl]
            dsimp only
            rw [glUpd_enable g (List.find?_some hfg)]
            rfl
        · have hfnone : findC "gl" (spiceL cs).1 = none := by
            cases hX : findC "gl" (spiceL cs).1 with
            | none => rfl
            | some g => rw [hX] at hg; simp at hg
          rw [if_neg hg]
          have hf0 : findC "gl" ((spiceL cs).1 ++ [.elem "gl" [] []]) =
              some (.elem "gl" [] []) :=
            findC_append_of_none "gl" (.elem "gl" [] []) (by rfl) _ hfnone
          rw [hf0]
          dsimp only
          rw [if_neg (by decide)]
          dsimp only
          rw [findC_updFirst_self "gl" _ (fun x => glUpd_isTag _ x) _, hf0]
          rw [show Option.map glUpd (some (Node.elem "gl" [] [])) =
            some (glUpd (.elem "gl" [] [])) from rfl]
          dsimp only
          decide
      · have hstep : ∀ l, spiceOKl l = true → spiceOKl (spiceStep l).1 = true := by
          intro l hl
          unfold spiceStep
          dsimp only
          split
          · split
            · exact hl
            · exact okl_updFirst spiceOKn spiceOKl (fun c cs => rfl) _ _ hglupdOK _ hl
          · have h0 : spiceOKl (l ++ [.elem "gl" [] []]) = true := by
              refine okl_append spiceOKn spiceOKl rfl (fun c cs => rfl) _ ?_ _ hl
              rfl
            split
            · exact h0
            · exact okl_updFirst spiceOKn spiceOKl (fun c cs => rfl) _ _ hglupdOK _ h0
        exact hstep _ ih
    · rw [if_neg ht]
      dsimp only
      simp only [spiceOKn, Bool.and_eq_true]
      refine ⟨?_, ih⟩
      rw [spiceLocalOK, if_neg ht]
  · intro s
    simp only [spiceN]
    rfl
  · simp only [spiceL]
    rfl
  · intro n ns ihn ihl
    simp only [spiceL]
    simp only [spiceOKl, Bool.and_eq_true]
    exact ⟨ihn, ihl⟩

/-- After the target mutation, the first `target` child (if any) has a
non-legacy bus. -/
theorem diskTargetMut_target_ok (l : List Node) :
    (match findC "target" (diskTargetMut l) with
     | some tn => !busLegacy (getD tn.attrsOf "bus" "unknown")
     | none => true) = true := by
  rw [diskTargetMut]
  cases hft : findC "target" l with
  | none => rw [hft]
  | some tN =>
    dsimp only
    by_cases hbus : busLegacy (getD tN.attrsOf "bus" "unknown") = true
    · rw [if_pos hbus]
      rw [findC_updFirst_self "target" _ (fun x => by cases x <;> rfl) _, hft]
      have htag : isTag "target" tN = true := List.find?_some hft
      cases tN with
      | text s => rw [isTag] at htag; cases htag
      | elem tt ta tc =>
        simp only [Option.map_some']
        dsimp only [Node.attrsOf]
        by_cases hdev : (getD ta "dev" "" == "") = true
        · rw [if_pos hdev]
          rw [getD, getA_setA_same]
          rfl
        · rw [if_neg hdev]
          rw [getD, getA_setA_other _ _ _ _ (by decide), getA_setA_same]
          rfl
    · rw [if_neg hbus]
      rw [hft]
      dsimp only
      have hb : busLegacy (getD tN.attrsOf "bus" "unknown") = false := by simpa using hbus
      rw [hb]
      rfl

/-- After the driver mutation, the first `driver` child (if any) carries the
writeback/unmap/threads triple. -/
theorem diskDriverMut_driver_ok (l : List Node) :
    (match findC "driver" (diskDriverMut l) with
     | some d =>
       getD d.attrsOf "cache" "default" == "writeback" &&
       getD d.attrsOf "discard" "none" == "unmap" &&
       getD d.attrsOf "io" "default" == "threads"
     | none => true) = true := by
  rw [diskDriverMut]
  cases hfd : findC "driver" l with
  | none => rw [hfd]
  | some d =>
    dsimp only
    by_cases hok : (getD d.attrsOf "cache" "default" == "writeback" &&
        getD d.attrsOf "discard" "none" == "unmap" &&
        getD d.attrsOf "io" "default" == "threads") = true
    · rw [if_pos hok]
      rw [hfd]
      dsimp only
      exact hok
    · rw [if_neg hok]
      rw [findC_updFirst_self "driver" _ (fun x => by cases x <;> rfl) _, hfd]
      have htag : isTag "driver" d = true := List.find?_some hfd
      cases d with
      | text s => rw [isTag] at htag; cases htag
      | elem td ad cd =>
        simp only [Option.map_some']
        dsimp only [Node.attrsOf]
        rw [getD, getD, getD,
          getA_setA_other (setA (setA ad "cache" "writeback") "discard" "unmap")
            "io" "threads" "cache" (by decide),
          getA_setA_other (setA ad "cache" "writeback") "discard" "unmap" "cache" (by decide),
          getA_setA_same ad "cache" "writeback",
          getA_setA_other (setA (setA ad "cache" "writeback") "discard" "unmap")
            "io" "threads" "discard" (by decide),
          getA_setA_same (setA ad "cache" "writeback") "discard" "unmap",
          getA_setA_same (setA (setA ad "cache" "writeback") "discard" "unmap") "io" "threads"]
        rfl

theorem diskTargetMut_findC_driver (l : List Node) :
    findC "driver" (diskTargetMut l) = findC "driver" l := by
  rw [diskTargetMut]
  cases hft : findC "target" l with
  | none => rfl
  | some tN =>
    dsimp only
    by_cases hbus : busLegacy (getD tN.attrsOf "bus" "unknown") = true
    · rw [if_pos hbus]
      exact findC_updFirst_of_ne "driver" _ _
        (fun x hx => isTag_ne_of_isTag "target" "driver" x hx (by decide))
        (fun x hx => by
          have h2 : isTag "driver" x = false :=
            isTag_ne_of_isTag "target" "driver" x hx (by decide)
          cases x with
          | text s => rfl
          | elem tx ax cx => simpa [isTag] using h2) l
    · rw [if_neg hbus]

theorem diskDriverMut_findC_target (l : List Node) :
    findC "target" (diskDriverMut l) = findC "target" l := by
  rw [diskDriverMut]
  cases hfd : findC "driver" l with
  | none => rfl
  | some d =>
    dsimp only
    by_cases hok : (getD d.attrsOf "cache" "default" == "writeback" &&
        getD d.attrsOf "discard" "none" == "unmap" &&
        getD d.attrsOf "io" "default" == "threads") = true
    · rw [if_pos hok]
    · rw [if_neg hok]
      exact findC_updFirst_of_ne "target" _ _
        (fun x hx => isTag_ne_of_isTag "driver" "target" x hx (by decide))
        (fun x hx => by
          have h2 : isTag "target" x = false :=
            isTag_ne_of_isTag "driver" "target" x hx (by decide)
          cases x with
          | text s => rfl
          | elem tx ax cx => simpa [isTag] using h2) l

theorem diskTargetMut_okl (l : List Node) (hl : diskOKl l = true) :
    diskOKl (diskTargetMut l) = true := by
  rw [diskTargetMut]
  cases hft : findC "target" l with
  | none => exact hl
  | some tN =>
    dsimp only
    by_cases hbus : busLegacy (getD tN.attrsOf "bus" "unknown") = true
    · rw [if_pos hbus]
      refine okl_updFirst diskOKn diskOKl (fun c cs => rfl) _ _ ?_ _ hl
      intro x hx hPx
      cases x with
      | text s => rw [isTag] at hx; cases hx
      | elem tx ax cx =>
        have htx : tx = "target" := by simpa [isTag] using hx
        subst htx
        dsimp only
        simp only [diskOKn, Bool.and_eq_true] at hPx ⊢
        exact ⟨by rfl, hPx.2⟩
    · rw [if_neg hbus]
      exact hl

theorem diskDriverMut_okl (l : List Node) (hl : diskOKl l = true) :
    diskOKl (diskDriverMut l) = true := by
  rw [diskDriverMut]
  cases hfd : findC "driver" l with
  | none => exact hl
  | some d =>
    dsimp only
    by_cases hok : (getD d.attrsOf "cache" "default" == "writeback" &&
        getD d.attrsOf "discard" "none" == "unmap" &&
        getD d.attrsOf "io" "default" == "threads") = true
    · rw [if_pos hok]
      exact hl
    · rw [if_neg hok]
      refine okl_updFirst diskOKn diskOKl (fun c cs => rfl) _ _ ?_ _ hl
      intro x hx hPx
      cases x with
      | text s => rw [isTag] at hx; cases hx
      | elem tx ax cx =>
        have htx : tx = "driver" := by simpa [isTag] using hx
        subst htx
        dsimp only
        simp only [diskOKn, Bool.and_eq_true] at hPx ⊢
        exact ⟨by rfl, hPx.2⟩

theorem disk_est :
    (∀ n, ∀ st n2 ch st2, diskN st n = .ok (n2, ch, st2) → diskOKn n2 = true) ∧
    (∀ ns, ∀ st ns2 ch st2, diskL st ns = .ok (ns2, ch, st2) → diskOKl ns2 = true) := by
  refine nodeInd
    (fun n => ∀ st n2 ch st2, diskN st n = .ok (n2, ch, st2) → diskOKn n2 = true)
    (fun ns => ∀ st ns2 ch st2, diskL st ns = .ok (ns2, ch, st2) → diskOKl ns2 = true)
    ?_ ?_ ?_ ?_
  · intro t a cs ih st n2 ch st2 h
    rw [diskN] at h
    by_cases hd : isDiskDisk t a = true
    · rw [if_pos hd] at h
      cases h1 : diskTargetInfo st cs with
      | error e => rw [h1] at h; cases h
      | ok pA =>
        rw [h1] at h
        dsimp only at h
        cases h2 : diskL pA.2 cs with
        | error e => rw [h2] at h; cases h
        | ok p2 =>
          rw [h2] at h
          dsimp only at h
          simp only [Except.ok.injEq, Prod.mk.injEq] at h
          obtain ⟨hn, -, -⟩ := h
          subst hn
          simp only [diskOKn, Bool.and_eq_true]
          constructor
          · rw [diskLocalOK, if_pos hd]
            rw [Bool.and_eq_true]
            constructor
            · rw [diskDriverMut_findC_target]
              exact diskTargetMut_target_ok p2.1
            · exact diskDriverMut_driver_ok (diskTargetMut p2.1)
          · exact diskDriverMut_okl _ (diskTargetMut_okl _ (ih pA.2 p2.1 p2.2.1 p2.2.2 h2))
    · rw [if_neg hd] at h
      cases h2 : diskL st cs with
      | error e => rw [h2] at h; cases h
      | ok p2 =>
        rw [h2] at h
        dsimp only at h
        simp only [Except.ok.injEq, Prod.mk.injEq] at h
        obtain ⟨hn, -, -⟩ := h
        subst hn
        simp only [diskOKn, Bool.and_eq_true]
        constructor
        · rw [diskLocalOK, if_neg hd]
        · exact ih st p2.1 p2.2.1 p2.2.2 h2
  · intro s st n2 ch st2 h
    rw [diskN] at h
    simp only [Except.ok.injEq, Prod.mk.injEq] at h
    obtain ⟨hn, -, -⟩ := h
    subst hn
    rfl
  · intro st ns2 ch st2 h
    rw [diskL] at h
    simp only [Except.ok.injEq, Prod.mk.injEq] at h
    obtain ⟨hn, -, -⟩ := h
    subst hn
    rfl
  · intro n ns ihn ihl st ns2 ch st2 h
    rw [diskL] at h
    cases h1 : diskN st n with
    | error e => rw [h1] at h; cases h
    | ok p1 =>
      rw [h1] at h
      dsimp only at h
      cases h2 : diskL p1.2.2 ns with
      | error e => rw [h2] at h; cases h
      | ok p2 =>
        rw [h2] at h
        dsimp only at h
        simp only [Except.ok.injEq, Prod.mk.injEq] at h
        obtain ⟨hn, -, -⟩ := h
        subst hn
        simp only [diskOKl, Bool.and_eq_true]
        exact ⟨ihn st p1.1 p1.2.1 p1.2.2 h1, ihl p1.2.2 p2.1 p2.2.1 p2.2.2 h2⟩

theorem appendChildOn_attrsOf (y x : Node) : (appendChildOn y x).attrsOf = x.attrsOf := by
  cases x <;> rfl

theorem cpu_est (cs cs5 : List Node) (ch : List Change)
    (h : cpuStep cs = .ok (cs5, ch)) : cpuOKroot cs5 = true := by
  have hvcpu5 : findC "vcpu" cs5 = findC "vcpu" cs :=
    cpuStep_findC cs cs5 ch h "vcpu" (by decide)
  rw [cpuStep] at h
  cases hc : findC "cpu" cs with
  | some c =>
    rw [hc] at h
    dsimp only at h
    have hcCtag : isTag "cpu" c = true := List.find?_some hc
    cases c with
    | text s => rw [isTag] at hcCtag; cases hcCtag
    | elem tc ac cc =>
      have htc : tc = "cpu" := by simpa [isTag] using hcCtag
      subst htc
      dsimp only [Node.attrsOf, Node.childrenOf] at h
      by_cases hm : (!(getD ac "mode" "custom" == "host-passthrough")) = true
      · rw [if_pos hm, if_pos hm] at h
        have hc1 : findC "cpu" (updFirst (isTag "cpu")
            (fun cn => setAttrOn "migratable" "on" (setAttrOn "check" "none"
              (setAttrOn "mode" "host-passthrough" cn))) cs) =
            some (setAttrOn "migratable" "on" (setAttrOn "check" "none"
              (setAttrOn "mode" "host-passthrough" (.elem "cpu" ac cc)))) := by
          rw [findC_updFirst_self "cpu" _ (fun x => by
            simp only [setAttrOn_isTag]) cs, hc]
          rfl
        have hmode1 : (getD (setAttrOn "migratable" "on" (setAttrOn "check" "none"
            (setAttrOn "mode" "host-passthrough" (Node.elem "cpu" ac cc)))).attrsOf
            "mode" "custom" == "host-passthrough") = true := by
          rw [setAttrOn, setAttrOn, setAttrOn]
          dsimp only [Node.attrsOf]
          rw [getD, getA_setA_other _ _ _ _ (by decide), getA_setA_other _ _ _ _ (by decide),
            getA_setA_same]
          rfl
        cases hv : findC "vcpu" cs with
        | some v =>
          rw [hv] at h
          dsimp only at h
          cases hpi : pyIntOpt (pyOrOne v.textOf) with
          | none => rw [hpi] at h; cases h
          | some n =>
            rw [hpi] at h
            dsimp only at h
            by_cases htopo : (findC "topology" cc).isNone = true
            · rw [if_pos htopo] at h
              simp only [Except.ok.injEq, Prod.mk.injEq] at h
              obtain ⟨h1, -⟩ := h
              subst h1
              rw [cpuOKroot,
                findC_updFirst_self "cpu" _ (fun x => appendChildOn_isTag _ _ x) _, hc1]
              rw [show Option.map (appendChildOn (topoNode n))
                (some (setAttrOn "migratable" "on" (setAttrOn "check" "none"
                  (setAttrOn "mode" "host-passthrough" (Node.elem "cpu" ac cc))))) =
                some (appendChildOn (topoNode n) (setAttrOn "migratable" "on"
                  (setAttrOn "check" "none"
                    (setAttrOn "mode" "host-passthrough" (Node.elem "cpu" ac cc)))))
                from rfl]
              dsimp only
              rw [appendChildOn_attrsOf, Bool.and_eq_true]
              refine ⟨hmode1, ?_⟩
              rw [hvcpu5, hv]
              dsimp only
              rw [hpi]
              rw [setAttrOn, setAttrOn, setAttrOn, appendChildOn]
              dsimp only [Node.childrenOf]
              rw [findC_append_of_none "topology" (topoNode n) (by rfl) cc
                (Option.isNone_iff_eq_none.mp htopo)]
              rfl
            · rw [if_neg htopo] at h
              simp only [Except.ok.injEq, Prod.mk.injEq] at h
              obtain ⟨h1, -⟩ := h
              subst h1
              rw [cpuOKroot, hc1]
              dsimp only
              rw [Bool.and_eq_true]
              refine ⟨hmode1, ?_⟩
              rw [hvcpu5, hv]
              dsimp only
              rw [hpi]
              rw [setAttrOn, setAttrOn, setAttrOn]
              dsimp only [Node.childrenOf]
              cases hX : findC "topology" cc with
              | none => rw [hX] at htopo; simp at htopo
              | some y => rfl
        | none =>
          rw [hv] at h
          dsimp only at h
          simp only [Except.ok.injEq, Prod.mk.injEq] at h
          obtain ⟨h1, -⟩ := h
          subst h1
          rw [cpuOKroot, hc1]
          dsimp only
          rw [Bool.and_eq_true]
          refine ⟨hmode1, ?_⟩
          rw [hvcpu5, hv]
      · rw [if_neg hm, if_neg hm] at h
        have hmode0 : (getD ac "mode" "custom" == "host-passthrough") = true := by
          cases hX : (getD ac "mode" "custom" == "host-passthrough") with
          | true => rfl
          | false => rw [hX] at hm; simp at hm
        cases hv : findC "vcpu" cs with
        | some v =>
          rw [hv] at h
          dsimp only at h
          cases hpi : pyIntOpt (pyOrOne v.textOf) with
          | none => rw [hpi] at h; cases h
          | some n =>
            rw [hpi] at h
            dsimp only at h
            by_cases htopo : (findC "topology" cc).isNone = true
            · rw [if_pos htopo] at h
              simp only [Except.ok.injEq, Prod.mk.injEq] at h
              obtain ⟨h1, -⟩ := h
              subst h1
              rw [cpuOKroot,
                findC_updFirst_self "cpu" _ (fun x => appendChildOn_isTag _ _ x) _, hc]
              rw [show Option.map (appendChildOn (topoNode n)) (some (Node.elem "cpu" ac cc)) =
                some (appendChildOn (topoNode n) (Node.elem "cpu" ac cc)) from rfl]
              dsimp only
              rw [appendChildOn_attrsOf, Bool.and_eq_true]
              refine ⟨hmode0, ?_⟩
              rw [hvcpu5, hv]
              dsimp only
              rw [hpi]
              rw [appendChildOn]
              dsimp only [Node.childrenOf]
              rw [findC_append_of_none "topology" (topoNode n) (by rfl) cc
                (Option.isNone_iff_eq_none.mp htopo)]
              rfl
            · rw [if_neg htopo] at h
              simp only [Except.ok.injEq, Prod.mk.injEq] at h
              obtain ⟨h1, -⟩ := h
              subst h1
              rw [cpuOKroot, hc]
              dsimp only
              rw [Bool.and_eq_true]
              refine ⟨hmode0, ?_⟩
              rw [hvcpu5, hv]
              dsimp only
              rw [hpi]
              dsimp only [Node.childrenOf]
              cases hX : findC "topology" cc with
              | none => rw [hX] at htopo; simp at htopo
              | some y => rfl
        | none =>
          rw [hv] at h
          dsimp only at h
          simp only [Except.ok.injEq, Prod.mk.injEq] at h
          obtain ⟨h1, -⟩ := h
          subst h1
          rw [cpuOKroot, hc]
          dsimp only
          rw [Bool.and_eq_true]
          refine ⟨hmode0, ?_⟩
          rw [hvcpu5, hv]
  | none =>
    rw [hc] at h
    dsimp only at h
    cases hv : findC "vcpu" cs with
    | some v =>
      rw [hv] at h
      dsimp only at h
      cases htx : v.textOf with
      | none => rw [htx] at h; cases h
      | some s =>
        rw [htx] at h
        dsimp only at h
        cases hpi : pyIntOpt s with
        | none => rw [hpi] at h; cases h
        | some n =>
          rw [hpi] at h
          dsimp only at h
          simp only [Except.ok.injEq, Prod.mk.injEq] at h
          obtain ⟨h1, -⟩ := h
          subst h1
          rw [cpuOKroot, findC_insAfter_of_none "cpu" _ (cpuNode n) (by rfl) cs hc]
          dsimp only
          rw [Bool.and_eq_true]
          constructor
          · rfl
          · rw [hvcpu5, hv]
            dsimp only
            have hs : (s == "") = false := by
              cases hE : (s == "") with
              | false => rfl
              | true =>
                have : s = "" := by simpa using hE
                subst this
                rw [show pyIntOpt "" = none from rfl] at hpi
                cases hpi
            rw [htx]
            rw [show pyOrOne (some s) = if (s == "") = true then "1" else s from rfl]
            rw [hs]
            rw [if_neg (by simp)]
            rw [hpi]
            rfl
    | none =>
      rw [hv] at h
      dsimp only at h
      simp only [Except.ok.injEq, Prod.mk.injEq] at h
      obtain ⟨h1, -⟩ := h
      subst h1
      rw [cpuOKroot, findC_append_of_none "cpu" (cpuNode 1) (by rfl) cs hc]
      dsimp only
      rw [Bool.and_eq_true]
      constructor
      · rfl
      · rw [hvcpu5, hv]

/-! ### On an already-optimized document every pass is the identity -/

theorem nic_noop : (∀ n, nicOKn n = true → nicN n = (n, [])) ∧
    (∀ cs, nicOKl cs = true → nicL cs = (cs, [])) := by
  refine nodeInd (fun n => nicOKn n = true → nicN n = (n, []))
    (fun cs => nicOKl cs = true → nicL cs = (cs, [])) ?_ ?_ ?_ ?_
  · intro t a cs ih h
    simp only [nicOKn, Bool.and_eq_true] at h
    simp only [nicN]
    rw [ih h.2]
    dsimp only
    by_cases ht : (t == "interface") = true
    · rw [if_pos ht]
      have hloc := h.1
      rw [nicLocalOK, if_pos ht] at hloc
      have hstep : nicStep cs = (cs, []) := by
        rw [nicStep]
        cases hf : findC "model" cs with
        | none => rfl
        | some m =>
          dsimp only
          rw [hf] at hloc
          dsimp only at hloc
          have hleg : nicLegacy (getD m.attrsOf "type" "unknown") = false := by
            simpa using hloc
          rw [if_neg (by rw [hleg]; simp)]
      rw [hstep]
      rfl
    · rw [if_neg ht]
  · intro s _
    rfl
  · intro _
    rfl
  · intro n ns ihn ihl h
    simp only [nicOKl, Bool.and_eq_true] at h
    simp only [nicL]
    rw [ihn h.1, ihl h.2]
    rfl

theorem video_noop : (∀ n, videoOKn n = true → videoN n = (n, [])) ∧
    (∀ cs, videoOKl cs = true → videoL cs = (cs, [])) := by
  refine nodeInd (fun n => videoOKn n = true → videoN n = (n, []))
    (fun cs => videoOKl cs = true → videoL cs = (cs, [])) ?_ ?_ ?_ ?_
  · intro t a cs ih h
    simp only [videoOKn, Bool.and_eq_true] at h
    simp only [videoN]
    rw [ih h.2]
    dsimp only
    by_cases ht : (t == "video") = true
    · rw [if_pos ht]
      have hloc := h.1
      rw [videoLocalOK, if_pos ht] at hloc
      have hstep : videoStep cs = (cs, []) := by
        rw [videoStep]
        cases hf : findC "model" cs with
        | none => rfl
        | some m =>
          dsimp only
          rw [hf] at hloc
          dsimp only at hloc
          have hleg : videoLegacy (getD m.attrsOf "type" "unknown") = false := by
            simpa using hloc
          rw [if_neg (by rw [hleg]; simp)]
      rw [hstep]
      rfl
    · rw [if_neg ht]
  · intro s _
    rfl
  · intro _
    rfl
  · intro n ns ihn ihl h
    simp only [videoOKl, Bool.and_eq_true] at h
    simp only [videoL]
    rw [ihn h.1, ihl h.2]
    rfl

theorem spice_noop : (∀ n, spiceOKn n = true → spiceN n = (n, [])) ∧
    (∀ cs, spiceOKl cs = true → spiceL cs = (cs, [])) := by
  refine nodeInd (fun n => spiceOKn n = true → spiceN n = (n, []))
    (fun cs => spiceOKl cs = true → spiceL cs = (cs, [])) ?_ ?_ ?_ ?_
  · intro t a cs ih h
    simp only [spiceOKn, Bool.and_eq_true] at h
    simp only [spiceN]
    rw [ih h.2]
    dsimp only
    by_cases ht : isSpiceGraphics t a = true
    · rw [if_pos ht]
      have hloc := h.1
      rw [spiceLocalOK, if_pos ht] at hloc
      have hstep : spiceStep cs = (cs, []) := by
        unfold spiceStep
        dsimp only
        cases hf : findC "gl" cs with
        | none => rw [hf] at hloc; cases hloc
        | some g =>
          rw [hf] at hloc
          dsimp only at hloc
          rw [if_pos (show (some g : Option Node).isSome = true from rfl)]
          rw [hf]
          dsimp only
          rw [if_pos hloc]
      rw [hstep]
      rfl
    · rw [if_neg ht]
  · intro s _
    rfl
  · intro _
    rfl
  · intro n ns ihn ihl h
    simp only [spiceOKl, Bool.and_eq_true] at h
    simp only [spiceL]
    rw [ihn h.1, ihl h.2]
    rfl

theorem disk_noop : (∀ n, diskOKn n = true → ∀ st, diskN st n = .ok (n, [], st)) ∧
    (∀ cs, diskOKl cs = true → ∀ st, diskL st cs = .ok (cs, [], st)) := by
  refine nodeInd (fun n => diskOKn n = true → ∀ st, diskN st n = .ok (n, [], st))
    (fun cs => diskOKl cs = true → ∀ st, diskL st cs = .ok (cs, [], st)) ?_ ?_ ?_ ?_
  · intro t a cs ih h st
    simp only [diskOKn, Bool.and_eq_true] at h
    rw [diskN]
    by_cases hd : isDiskDisk t a = true
    · rw [if_pos hd]
      have hloc := h.1
      rw [diskLocalOK, if_pos hd, Bool.and_eq_true] at hloc
      have hTI : diskTargetInfo st cs = .ok ([], st) := by
        rw [diskTargetInfo]
        cases hf : findC "target" cs with
        | none => rfl
        | some tN =>
          dsimp only
          have hT := hloc.1
          rw [hf] at hT
          dsimp only at hT
          have hb : busLegacy (getD tN.attrsOf "bus" "unknown") = false := by simpa using hT
          rw [if_neg (by rw [hb]; simp)]
      have hTM : diskTargetMut cs = cs := by
        rw [diskTargetMut]
        cases hf : findC "target" cs with
        | none => rfl
        | some tN =>
          dsimp only
          have hT := hloc.1
          rw [hf] at hT
          dsimp only at hT
          have hb : busLegacy (getD tN.attrsOf "bus" "unknown") = false := by simpa using hT
          rw [if_neg (by rw [hb]; simp)]
      have hDM : diskDriverMut cs = cs := by
        rw [diskDriverMut]
        cases hf : findC "driver" cs with
        | none => rfl
        | some d =>
          dsimp only
          have hD := hloc.2
          rw [hf] at hD
          dsimp only at hD
          rw [if_pos hD]
      have hDI : diskDriverInfo cs = [] := by
        rw [diskDriverInfo]
        cases hf : findC "driver" cs with
        | none => rfl
        | some d =>
          dsimp only
          have hD := hloc.2
          rw [hf] at hD
          dsimp only at hD
          rw [if_pos hD]
      rw [hTI]
      dsimp only
      rw [ih h.2 st]
      dsimp only
      rw [hTM, hDM, hDI]
      rfl
    · rw [if_neg hd]
      rw [ih h.2 st]
  · intro s _ st
    rfl
  · intro _ st
    rfl
  · intro n ns ihn ihl h st
    simp only [diskOKl, Bool.and_eq_true] at h
    rw [diskL]
    rw [ihn h.1 st]
    dsimp only
    rw [ihl h.2 st]
    rfl

theorem cpu_noop (cs : List Node) (h : cpuOKroot cs = true) : cpuStep cs = .ok (cs, []) := by
  rw [cpuOKroot] at h
  cases hc : findC "cpu" cs with
  | none => rw [hc] at h; cases h
  | some c =>
    rw [hc] at h
    dsimp only at h
    rw [Bool.and_eq_true] at h
    have hmF : ¬((!(getD c.attrsOf "mode" "custom" == "host-passthrough")) = true) := by
      rw [h.1]
      simp
    rw [cpuStep, hc]
    dsimp only
    cases hv : findC "vcpu" cs with
    | none =>
      dsimp only
      rw [if_neg hmF, if_neg hmF]
    | some v =>
      have h2 := h.2
      rw [hv] at h2
      dsimp only at h2
      rw [Bool.and_eq_true] at h2
      obtain ⟨m, hpi⟩ := Option.isSome_iff_exists.mp h2.1
      obtain ⟨y, hy⟩ := Option.isSome_iff_exists.mp h2.2
      dsimp only
      rw [hpi]
      dsimp only
      rw [if_neg (by rw [hy]; simp)]
      rw [if_neg hmF, if_neg hmF]

/-- On a document where no rule fires, the whole transformation returns the
document unchanged with no change records. -/
theorem optimized_noop (t : String) (a : Attrs) (cs : List Node)
    (h : optimizedDoc t a cs = true) :
    optimizeDoc t a cs = .ok (.elem t a cs, []) := by
  rw [optimizedDoc] at h
  simp only [Bool.and_eq_true] at h
  obtain ⟨⟨⟨⟨h1, h2⟩, h3⟩, h4⟩, h5⟩ := h
  rw [optimizeDoc]
  rw [disk_noop.1 _ h1 none]
  dsimp only
  rw [nic_noop.1 _ h2]
  dsimp only
  rw [video_noop.1 _ h3]
  dsimp only
  rw [spice_noop.1 _ h4]
  dsimp only
  rw [cpu_noop cs h5]
  rfl

/-- A successful transformation leaves a document on which no rule fires. -/
theorem optimize_establishes (t : String) (a : Attrs) (cs : List Node)
    (t2 : String) (a2 : Attrs) (cs2 : List Node) (ch : List Change)
    (h : optimizeDoc t a cs = .ok (.elem t2 a2 cs2, ch)) :
    optimizedDoc t2 a2 cs2 = true := by
  have hnic_disk := nicPass_pres (fun t a cs => diskLocalOK t a cs) diskOKn diskOKl
    (fun s => rfl) (fun c cs => rfl) (fun t a cs => rfl)
    (fun a cs => rfl) (fun a cs => rfl)
    (fun t a l1 l2 hp => diskLocalOK_topPres t a l1 l2 hp)
  have hvid_disk := videoPass_pres (fun t a cs => diskLocalOK t a cs) diskOKn diskOKl
    (fun s => rfl) rfl (fun c cs => rfl) (fun t a cs => rfl)
    (fun a cs => rfl) (fun a cs => rfl) (fun a cs => rfl)
    (fun t a l1 l2 hp => diskLocalOK_topPres t a l1 l2 hp)
  have hvid_nic := videoPass_pres (fun t _ cs => nicLocalOK t cs) nicOKn nicOKl
    (fun s => rfl) rfl (fun c cs => rfl) (fun t a cs => rfl)
    (fun a cs => rfl) (fun a cs => rfl) (fun a cs => rfl)
    (fun t a l1 l2 hp => nicLocalOK_topPres t l1 l2 hp)
  have hsp_disk := spicePass_pres (fun t a cs => diskLocalOK t a cs) diskOKn diskOKl
    (fun s => rfl) rfl (fun c cs => rfl) (fun t a cs => rfl)
    (fun a cs => rfl) (fun a cs => rfl)
    (fun t a l1 l2 hp => diskLocalOK_topPres t a l1 l2 hp)
  have hsp_nic := spicePass_pres (fun t _ cs => nicLocalOK t cs) nicOKn nicOKl
    (fun s => rfl) rfl (fun c cs => rfl) (fun t a cs => rfl)
    (fun a cs => rfl) (fun a cs => rfl)
    (fun t a l1 l2 hp => nicLocalOK_topPres t l1 l2 hp)
  have hsp_vid := spicePass_pres (fun t _ cs => videoLocalOK t cs) videoOKn videoOKl
    (fun s => rfl) rfl (fun c cs => rfl) (fun t a cs => rfl)
    (fun a cs => rfl) (fun a cs => rfl)
    (fun t a l1 l2 hp => videoLocalOK_topPres t l1 l2 hp)
  rw [optimizeDoc] at h
  cases h1 : diskN none (.elem t a cs) with
  | error e => rw [h1] at h; cases h
  | ok p1 =>
    rw [h1] at h
    dsimp only at h
    have hdisk1 : diskOKn p1.1 = true := disk_est.1 _ none p1.1 p1.2.1 p1.2.2 h1
    have hnic2 : nicOKn (nicN p1.1).1 = true := nic_est.1 p1.1
    have hdisk2 : diskOKn (nicN p1.1).1 = true := hnic_disk.1 p1.1 hdisk1
    have hvideo3 : videoOKn (videoN (nicN p1.1).1).1 = true := video_est.1 _
    have hdisk3 : diskOKn (videoN (nicN p1.1).1).1 = true := hvid_disk.1 _ hdisk2
    have hnic3 : nicOKn (videoN (nicN p1.1).1).1 = true := hvid_nic.1 _ hnic2
    have hspice4 : spiceOKn (spiceN (videoN (nicN p1.1).1).1).1 = true := spice_est.1 _
    have hdisk4 : diskOKn (spiceN (videoN (nicN p1.1).1).1).1 = true := hsp_disk.1 _ hdisk3
    have hnic4 : nicOKn (spiceN (videoN (nicN p1.1).1).1).1 = true := hsp_nic.1 _ hnic3
    have hvideo4 : videoOKn (spiceN (videoN (nicN p1.1).1).1).1 = true := hsp_vid.1 _ hvideo3
    cases hn4 : (spiceN (videoN (nicN p1.1).1).1).1 with
    | text s =>
      rw [hn4] at h
      dsimp only at h
      simp only [Except.ok.injEq, Prod.mk.injEq] at h
      obtain ⟨hbad, -⟩ := h
      cases hbad
    | elem t4 a4 cs4 =>
      rw [hn4] at h
      dsimp only at h
      rw [hn4] at hdisk4 hnic4 hvideo4 hspice4
      cases h2 : cpuStep cs4 with
      | error e => rw [h2] at h; cases h
      | ok p5 =>
        rw [h2] at h
        dsimp only at h
        simp only [Except.ok.injEq, Prod.mk.injEq, Node.elem.injEq] at h
        obtain ⟨⟨he1, he2, he3⟩, -⟩ := h
        rw [← he1, ← he2, ← he3]
        have hcpu5 : cpuOKroot p5.1 = true := cpu_est cs4 p5.1 p5.2 h2
        have hdisk5 : diskOKn (.elem t4 a4 p5.1) = true :=
          cpuStep_pres (fun t a cs => diskLocalOK t a cs) diskOKn diskOKl
            rfl (fun c cs => rfl) (fun t a cs => rfl)
            (fun a cs => rfl) (fun a cs => rfl)
            (fun t a l1 l2 hA hB _ _ => diskLocalOK_congr t a l1 l2 hA hB)
            cs4 p5.1 p5.2 h2 t4 a4 hdisk4
        have hnic5 : nicOKn (.elem t4 a4 p5.1) = true :=
          cpuStep_pres (fun t _ cs => nicLocalOK t cs) nicOKn nicOKl
            rfl (fun c cs => rfl) (fun t a cs => rfl)
            (fun a cs => rfl) (fun a cs => rfl)
            (fun t a l1 l2 _ _ hM _ => nicLocalOK_congr t l1 l2 hM)
            cs4 p5.1 p5.2 h2 t4 a4 hnic4
        have hvideo5 : videoOKn (.elem t4 a4 p5.1) = true :=
          cpuStep_pres (fun t _ cs => videoLocalOK t cs) videoOKn videoOKl
            rfl (fun c cs => rfl) (fun t a cs => rfl)
            (fun a cs => rfl) (fun a cs => rfl)
            (fun t a l1 l2 _ _ hM _ => videoLocalOK_congr t l1 l2 hM)
            cs4 p5.1 p5.2 h2 t4 a4 hvideo4
        have hspice5 : spiceOKn (.elem t4 a4 p5.1) = true :=
          cpuStep_pres (fun t a cs => spiceLocalOK t a cs) spiceOKn spiceOKl
            rfl (fun c cs => rfl) (fun t a cs => rfl)
            (fun a cs => rfl) (fun a cs => rfl)
            (fun t a l1 l2 _ _ _ hG => spiceLocalOK_congr t a l1 l2 hG)
            cs4 p5.1 p5.2 h2 t4 a4 hspice4
        rw [optimizedDoc]
        simp only [Bool.and_eq_true]
        exact ⟨⟨⟨⟨hdisk5, hnic5⟩, hvideo5⟩, hspice5⟩, hcpu5⟩

/-! ## Claims -/

/-- Claim C4: a document whose only non-optimized feature is a single disk
with `bus="ide"`, `dev="hda"` transforms to `bus="virtio"`, `dev="vda"` and
yields exactly one ChangeRecord, with rule key `disk_bus`, and zero records
from any other rule (stated at the spec's own test instance). -/
theorem claim_C4 :
    optimizeDoc "domain" [] docDiskOnly =
      .ok (docDiskOnlyOut, [("disk_bus", "ide (hda)", "virtio (vda)")]) := by
  rfl

/-- Claim C7: a document with a `vcpu` count of 4 and no `cpu` node
transforms to one with a `cpu` node carrying `mode="host-passthrough"` and a
`topology` sub-node with `cores="4"`, inserted immediately after the `vcpu`
node (here: before the trailing `os` sibling), with exactly two
ChangeRecords, `cpu_mode` then `cpu_topology`; and with no `vcpu` node at
all the created `cpu` node is appended at the end (with count 1). -/
theorem claim_C7 :
    optimizeDoc "domain" [] docVcpu4 =
      .ok (docVcpu4Out,
        [("cpu_mode", "default", "host-passthrough"),
         ("cpu_topology", "none", "1 socket × 4 cores × 1 thread")]) ∧
    optimizeDoc "domain" [] [.elem "os" [] []] =
      .ok (.elem "domain" [] [.elem "os" [] [], cpuNode 1],
        [("cpu_mode", "default", "host-passthrough"),
         ("cpu_topology", "none", "1 socket × 1 cores × 1 thread")]) := by
  exact ⟨rfl, rfl⟩

/-- Claim C2 (code bug): a disk whose `target` has `bus="ide"` but no `dev`
attribute makes the whole run abort with the modelled `UnboundLocalError`
(the change record reads the never-assigned local `new_dev`), instead of
being skipped as the spec's failure semantics require. -/
theorem claim_C2_eval :
    optimizeDoc "domain" [] docDiskNoDev = .error .nameError := by
  rfl

/-- Claim C9: on input text that is not well-formed, `optimize_xml` fails
with the parse error, producing no change records and no output document
(the `Except.error` carries neither). -/
theorem claim_C9 :
    ∀ s, parseRoot s = none → optimize_xml s = .error .parseError := by
  intro s h
  unfold optimize_xml
  rw [h]

/-- Witness for C9 at the concrete non-well-formed input `"<a"`. -/
theorem claim_C9_witness : optimize_xml "<a" = .error .parseError :=
  claim_C9 "<a" (by rfl)

/-- Counterexample to claim C3 as stated: on `docTwoDisks` the record
sequence is not ordered by rule — a `disk_cache` record precedes a
`disk_bus` record (the records interleave per disk). -/
theorem claim_C3_counterexample :
    (optimizeDoc "domain" [] docTwoDisks).map (fun r => ruleSortedB r.2) = .ok false := by
  rfl

/-- Counterexample to claim C5 as stated: a video node whose acceleration
flag is not enabled but whose model type is already `virtio` is left
completely unchanged — the flag is not set and no `video_accel` record is
emitted. -/
theorem claim_C5_counterexample :
    optimizeDoc "domain" [] docVideoNoAccel = .ok (.elem "domain" [] docVideoNoAccel, []) := by
  rfl

/-- Counterexample to claim C6 as stated: with a `vcpu` text that is not
parsable as an integer the pass aborts (`ValueError`) instead of using
count 1, and with the parsable but non-positive text `"0"` the count used
is 0, not 1. -/
theorem claim_C6_counterexample :
    optimizeDoc "domain" [] [.elem "vcpu" [] [.text "x"]] = .error .valueError ∧
    optimizeDoc "domain" [] [.elem "vcpu" [] [.text "0"]] =
      .ok (.elem "domain" [] [.elem "vcpu" [] [.text "0"], cpuNode 0],
        [("cpu_mode", "default", "host-passthrough"), topoChange 0]) := by
  exact ⟨rfl, rfl⟩

/-- Claim C6 as amended: the count is `int(vcpu text)` — with no `cpu` node,
a parsable text is used as-is (no positivity check and no default), an
unparsable text aborts with `ValueError`, missing text aborts with
`TypeError`, and only an absent `vcpu` node defaults to 1; with a `cpu` node
present, empty text defaults to 1; and the abort propagates out of the whole
pass. -/
theorem claim_C6_amended :
    (∀ s n, pyIntOpt s = some n →
       cpuStep [.elem "vcpu" [] [.text s]] =
         .ok ([.elem "vcpu" [] [.text s], cpuNode n],
              [("cpu_mode", "default", "host-passthrough"), topoChange n])) ∧
    (∀ s, pyIntOpt s = none →
       cpuStep [.elem "vcpu" [] [.text s]] = .error .valueError) ∧
    cpuStep [.elem "vcpu" [] []] = .error .typeError ∧
    cpuStep [.elem "vcpu" [] [.text ""], .elem "cpu" [("mode", "host-passthrough")] []] =
      .ok ([.elem "vcpu" [] [.text ""], .elem "cpu" [("mode", "host-passthrough")] [topoNode 1]],
           [topoChange 1]) ∧
    cpuStep [] = .ok ([cpuNode 1], [("cpu_mode", "default", "host-passthrough"), topoChange 1]) ∧
    optimizeDoc "domain" [] [.elem "vcpu" [] [.text "x"]] = .error .valueError := by
  refine ⟨?_, ?_, by rfl, by rfl, by rfl, by rfl⟩
  · intro s n h
    simp [cpuStep, findC, List.find?, isTag, Node.textOf, h, insAfter]
  · intro s h
    simp [cpuStep, findC, List.find?, isTag, Node.textOf, h]

/-- Witness for the amended C6 at the concrete text `"7"`. -/
theorem claim_C6_amended_witness :
    cpuStep [.elem "vcpu" [] [.text "7"]] =
      .ok ([.elem "vcpu" [] [.text "7"], cpuNode 7],
           [("cpu_mode", "default", "host-passthrough"), topoChange 7]) :=
  claim_C6_amended.1 "7" 7 (by rfl)

/-- Claim C5 as amended: the 3D flag is handled only inside the video_model
rule.  For a video node whose model type is legacy, the model is rewritten,
the acceleration sub-node's flag is set to yes, and a distinct `video_accel`
record follows the `video_model` record exactly when the previous flag value
was not `yes`; for any other model type the video node is left untouched
even when the flag is not enabled. -/
theorem claim_C5_amended :
    (∀ tv av, videoLegacy tv = true →
       videoN (.elem "video" [] [.elem "model" [("type", tv)] [.elem "acceleration" av []]]) =
         (.elem "video" []
            [.elem "model" [("type", "virtio"), ("heads", "1"), ("primary", "yes")]
               [.elem "acceleration" (setA av "accel3d" "yes") []]],
          ("video_model", tv, "virtio") ::
            (if getD av "accel3d" "no" == "yes" then []
             else [("video_accel", "accel3d=" ++ getD av "accel3d" "no", "accel3d=yes")]))) ∧
    (∀ tv av, videoLegacy tv = false →
       videoN (.elem "video" [] [.elem "model" [("type", tv)] [.elem "acceleration" av []]]) =
         (.elem "video" [] [.elem "model" [("type", tv)] [.elem "acceleration" av []]], [])) := by
  constructor
  · intro tv av h
    simp [videoN, videoL, videoStep, videoModelUpd, findC, List.find?, isTag, h, setA,
          Node.attrsOf, Node.childrenOf, updFirst, setAttrOn, getD, getA]
  · intro tv av h
    simp [videoN, videoL, videoStep, findC, List.find?, isTag, h, Node.attrsOf, getD, getA]

/-- Witness for the amended C5 at model type `qxl` and flag `no`. -/
theorem claim_C5_amended_witness :
    videoN (.elem "video" []
        [.elem "model" [("type", "qxl")] [.elem "acceleration" [("accel3d", "no")] []]]) =
      (.elem "video" []
         [.elem "model" [("type", "virtio"), ("heads", "1"), ("primary", "yes")]
            [.elem "acceleration" (setA [("accel3d", "no")] "accel3d" "yes") []]],
       ("video_model", "qxl", "virtio") ::
         (if getD [("accel3d", "no")] "accel3d" "no" == "yes" then []
          else [("video_accel", "accel3d=" ++ getD [("accel3d", "no")] "accel3d" "no",
                 "accel3d=yes")])) :=
  claim_C5_amended.1 "qxl" [("accel3d", "no")] (by rfl)


/-- Claim C8: canonical stability.  `wsN true 0 n` is the tree obtained by
re-parsing `canonDoc n` (the indentation whitespace the serializer emitted
becomes text children; where formatting was disabled the subtree re-parses
to itself), so canonicalizing the re-parsed canonical form reproduces it
byte for byte: with `n = parse D` this is
`canonicalize(parse(canonicalize(parse(D)))) = canonicalize(parse(D))`. -/
theorem claim_C8 : ∀ n : Node, canonDoc (wsN true 0 n) = canonDoc n := by
  intro n
  unfold canonDoc
  rw [ser_ws_fixed.1 n true 0]

/-- Claim C3 as amended: the change records are grouped by traversal pass in
the fixed pass order — disk records (disk_bus/disk_cache, interleaved per
disk), then nic_model records, then video records (video_model/video_accel,
interleaved per video node), then spice_gl records, then the cpu records. -/
theorem claim_C3_amended :
    ∀ t a cs n ch, optimizeDoc t a cs = .ok (n, ch) →
      ∃ c1 c2 c3 c4 c5, ch = c1 ++ c2 ++ c3 ++ c4 ++ c5 ∧
        (∀ r ∈ c1, r.1 = "disk_bus" ∨ r.1 = "disk_cache") ∧
        (∀ r ∈ c2, r.1 = "nic_model") ∧
        (∀ r ∈ c3, r.1 = "video_model" ∨ r.1 = "video_accel") ∧
        (∀ r ∈ c4, r.1 = "spice_gl") ∧
        (∀ r ∈ c5, r.1 = "cpu_mode" ∨ r.1 = "cpu_topology") := by
  intro t a cs n ch h
  unfold optimizeDoc at h
  cases hd : diskN none (.elem t a cs) with
  | error e => rw [hd] at h; cases h
  | ok res1 =>
    obtain ⟨n1, c1, st1⟩ := res1
    rw [hd] at h
    dsimp only at h
    cases hr4 : (spiceN (videoN (nicN n1).1).1).1 with
    | text s =>
      rw [hr4] at h
      simp only [Except.ok.injEq, Prod.mk.injEq] at h
      obtain ⟨h1, h2⟩ := h
      subst h2
      refine ⟨c1, (nicN n1).2, (videoN (nicN n1).1).2, (spiceN (videoN (nicN n1).1).1).2, [],
        by simp, ?_, ?_, ?_, ?_, ?_⟩
      · exact fun r hr => disk_keys.1 _ none n1 c1 st1 hd r hr
      · exact fun r hr => nic_keys.1 n1 r hr
      · exact fun r hr => video_keys.1 (nicN n1).1 r hr
      · exact fun r hr => spice_keys.1 (videoN (nicN n1).1).1 r hr
      · intro r hr; cases hr
    | elem t4 a4 cs4 =>
      rw [hr4] at h
      dsimp only at h
      cases hcpu : cpuStep cs4 with
      | error e => rw [hcpu] at h; cases h
      | ok res5 =>
        obtain ⟨cs5, c5⟩ := res5
        rw [hcpu] at h
        simp only [Except.ok.injEq, Prod.mk.injEq] at h
        obtain ⟨h1, h2⟩ := h
        subst h2
        refine ⟨c1, (nicN n1).2, (videoN (nicN n1).1).2, (spiceN (videoN (nicN n1).1).1).2, c5,
          rfl, ?_, ?_, ?_, ?_, ?_⟩
        · exact fun r hr => disk_keys.1 _ none n1 c1 st1 hd r hr
        · exact fun r hr => nic_keys.1 n1 r hr
        · exact fun r hr => video_keys.1 (nicN n1).1 r hr
        · exact fun r hr => spice_keys.1 (videoN (nicN n1).1).1 r hr
        · exact fun r hr => cpuStep_keys cs4 cs5 c5 hcpu r hr

/-- Witness for the amended C3 at the two-disk document. -/
theorem claim_C3_amended_witness :
    ∃ c1 c2 c3 c4 c5,
      ([("disk_bus", "ide (hda)", "virtio (vda)"),
        ("disk_cache", "cache=default, discard=none, io=default",
         "cache=writeback, discard=unmap, io=threads"),
        ("disk_bus", "scsi (sdb)", "virtio (vdb)"),
        ("disk_cache", "cache=default, discard=none, io=default",
         "cache=writeback, discard=unmap, io=threads")] : List Change) =
        c1 ++ c2 ++ c3 ++ c4 ++ c5 ∧
      (∀ r ∈ c1, r.1 = "disk_bus" ∨ r.1 = "disk_cache") ∧
      (∀ r ∈ c2, r.1 = "nic_model") ∧
      (∀ r ∈ c3, r.1 = "video_model" ∨ r.1 = "video_accel") ∧
      (∀ r ∈ c4, r.1 = "spice_gl") ∧
      (∀ r ∈ c5, r.1 = "cpu_mode" ∨ r.1 = "cpu_topology") := by
  have hd : optimizeDoc "domain" [] docTwoDisks =
      .ok (.elem "domain" []
        [.elem "devices" []
           [.elem "disk" [("device", "disk")]
              [.elem "driver" [("name", "qemu"), ("cache", "writeback"), ("discard", "unmap"), ("io", "threads")] [],
               .elem "target" [("dev", "vda"), ("bus", "virtio")] []],
            .elem "disk" [("device", "disk")]
              [.elem "driver" [("name", "qemu"), ("cache", "writeback"), ("discard", "unmap"), ("io", "threads")] [],
               .elem "target" [("dev", "vdb"), ("bus", "virtio")] []]],
         .elem "cpu" [("mode", "host-passthrough")] []],
        [("disk_bus", "ide (hda)", "virtio (vda)"),
         ("disk_cache", "cache=default, discard=none, io=default",
          "cache=writeback, discard=unmap, io=threads"),
         ("disk_bus", "scsi (sdb)", "virtio (vdb)"),
         ("disk_cache", "cache=default, discard=none, io=default",
          "cache=writeback, discard=unmap, io=threads")]) := by rfl
  exact claim_C3_amended "domain" [] docTwoDisks _ _ hd

/-- Claim C10: the transform never deletes anything — every element (with its
tag), every attribute name and every text node of the input document is still
present in the output document, in order; rules only set or add attribute
values and insert new elements. -/
theorem claim_C10 :
    ∀ t a cs n ch, optimizeDoc t a cs = .ok (n, ch) →
      embN (.elem t a cs) n = true := by
  intro t a cs n ch h
  unfold optimizeDoc at h
  cases hd : diskN none (.elem t a cs) with
  | error e => rw [hd] at h; cases h
  | ok res1 =>
    obtain ⟨n1, c1, st1⟩ := res1
    rw [hd] at h
    dsimp only at h
    have e1 : embN (.elem t a cs) n1 = true := emb_disk.1 _ none n1 c1 st1 hd
    have e2 : embN (.elem t a cs) (nicN n1).1 = true :=
      emb_trans.1 _ _ n1 e1 (emb_nic.1 n1)
    have e3 : embN (.elem t a cs) (videoN (nicN n1).1).1 = true :=
      emb_trans.1 _ _ _ e2 (emb_video.1 (nicN n1).1)
    have e4 : embN (.elem t a cs) (spiceN (videoN (nicN n1).1).1).1 = true :=
      emb_trans.1 _ _ _ e3 (emb_spice.1 (videoN (nicN n1).1).1)
    cases hr4 : (spiceN (videoN (nicN n1).1).1).1 with
    | text s =>
      rw [hr4] at h
      simp only [Except.ok.injEq, Prod.mk.injEq] at h
      obtain ⟨h1, h2⟩ := h
      rw [← h1]
      rw [hr4] at e4
      exact e4
    | elem t4 a4 cs4 =>
      rw [hr4] at h
      dsimp only at h
      cases hcpu : cpuStep cs4 with
      | error e => rw [hcpu] at h; cases h
      | ok res5 =>
        obtain ⟨cs5, c5⟩ := res5
        rw [hcpu] at h
        simp only [Except.ok.injEq, Prod.mk.injEq] at h
        obtain ⟨h1, h2⟩ := h
        rw [← h1]
        rw [hr4] at e4
        refine emb_trans.1 _ _ _ e4 ?_
        exact embN_elem t4 a4 a4 cs4 cs5 (keysSubB_refl a4) (emb_cpuStep cs4 cs5 c5 hcpu)

/-- Witness for C10 at the single-disk document. -/
theorem claim_C10_witness :
    embN (.elem "domain" [] docDiskOnly) docDiskOnlyOut = true :=
  claim_C10 "domain" [] docDiskOnly docDiskOnlyOut
    [("disk_bus", "ide (hda)", "virtio (vda)")] (by rfl)

/-- C1: the transformation is idempotent.  Whenever the tree-level transform
succeeds, running it a second time on the output document returns that
document unchanged with an empty change-record list
(`transform(transform(D).document).changes == []`). -/
theorem claim_C1 (t : String) (a : Attrs) (cs : List Node)
    (t2 : String) (a2 : Attrs) (cs2 : List Node) (ch : List Change)
    (h : optimizeDoc t a cs = .ok (.elem t2 a2 cs2, ch)) :
    optimizeDoc t2 a2 cs2 = .ok (.elem t2 a2 cs2, []) :=
  optimized_noop t2 a2 cs2 (optimize_establishes t a cs t2 a2 cs2 ch h)

/-- Witness for C1 at the one-disk document: its transform is a fixed point
with no change records. -/
theorem claim_C1_witness :
    optimizeDoc "domain" [] docDiskOnlyOut.childrenOf =
      .ok (.elem "domain" [] docDiskOnlyOut.childrenOf, []) :=
  claim_C1 "domain" [] docDiskOnly "domain" [] docDiskOnlyOut.childrenOf
    [("disk_bus", "ide (hda)", "virtio (vda)")] (by rfl)

end VMOpt
